import Mathlib

/-!
# Verification of the lot/plan → ArcGIS → KML backend

Shallow embedding of the backend's core algorithms:

* `normalize_lotplan` (backend/app/services/parcel_resolver.py) — free-text
  lot/plan normalisation via three regexes plus a slash-split fallback;
* `fetch_all_features` / `arcgis_query` (backend/app/services/arcgis_client.py)
  — paginated, fault-reporting feature-service client;
* `geojson_to_esri_polygon`, `geojson_to_esri_envelope`
  (backend/app/utils/geo.py) and `esri_polygon_to_geojson`
  (backend/app/main.py) — pure-JSON geometry codec;
* `esri_polygon_to_polygons` (parcel_resolver.py) — ring grouping heuristic
  with shapely calls abstracted as an oracle model;
* `resolve_parcels` (parcel_resolver.py) — tiered cadastre queries, union
  cascade;
* `intersect` (backend/app/main.py) — per-layer polygon→polygon(*)→envelope
  fallback chain.

Python string semantics are modelled on the ASCII fragment: `str.upper`
maps `a`–`z` to `A`–`Z` and fixes every other character, `\s` is the six
ASCII whitespace characters.  Characters are Lean `Char`s; external
effects (HTTP, shapely) are explicit oracle parameters, so every
definition is executable.
-/

namespace QldsMapper

/-! ## Character classes (ASCII fragment of Python `re` / `str`) -/

def isWs (c : Char) : Bool :=
  c.toNat = 32 || c.toNat = 9 || c.toNat = 10 || c.toNat = 13 ||
    c.toNat = 11 || c.toNat = 12

def isUpperAlpha (c : Char) : Bool := 65 ≤ c.toNat && c.toNat ≤ 90

def isLowerAlpha (c : Char) : Bool := 97 ≤ c.toNat && c.toNat ≤ 122

def isAlpha (c : Char) : Bool := isUpperAlpha c || isLowerAlpha c

def isDigit (c : Char) : Bool := 48 ≤ c.toNat && c.toNat ≤ 57

def isAlnum (c : Char) : Bool := isAlpha c || isDigit c

/-- Python `str.upper` restricted to ASCII: maps `a`–`z` to `A`–`Z`. -/
def toUpper (c : Char) : Char :=
  if isLowerAlpha c then Char.ofNat (c.toNat - 32) else c

/-- `str.strip()`: drop whitespace at both ends. -/
def stripWs (l : List Char) : List Char :=
  List.rdropWhile isWs (l.dropWhile isWs)

/-- `str.replace(" ", "")`: remove ASCII space characters. -/
def removeSpaces (l : List Char) : List Char := l.filter (fun c => c ≠ ' ')

/-- `str.lstrip("L")`: drop leading capital `L`s. -/
def lstripL (l : List Char) : List Char := l.dropWhile (fun c => c = 'L')

/-! ## The three lot/plan regexes

`LP_SLASH = ^\s*([A-Za-z0-9]+)\s*/\s*([A-Za-z]{1,4}\s*\d{1,7})\s*$`
`LP_SPACE = ^\s*(?:L(?:OT)?\s*)?([A-Za-z0-9]+)\s+([A-Za-z]{1,4}\s*\d{1,7})\s*$`
`LP_TIGHT = ^\s*(?:L(?:OT)?\s*)?([0-9A-Za-z]+?)([A-Za-z]{1,4}\s*\d{1,7})\s*$`
all with `re.IGNORECASE`.  Each matcher below reproduces Python's
backtracking outcome: greedy runs followed by a character of a disjoint
class are maximal-munch exact; the optional `L`/`LOT` marker is tried in
the order `LOT`, `L`, absent; the lazy group of `LP_TIGHT` is grown one
character at a time from the left. -/

/-- Tail pattern `([A-Za-z]{1,4}\s*\d{1,7})\s*$`; returns the group. -/
def matchPlanEnd (s : List Char) : Option (List Char) :=
  let ls := s.takeWhile isAlpha
  let r := s.dropWhile isAlpha
  if ls.length < 1 || 4 < ls.length then none
  else
    let ws := r.takeWhile isWs
    let r2 := r.dropWhile isWs
    let ds := r2.takeWhile isDigit
    let r3 := r2.dropWhile isDigit
    if ds.length < 1 || 7 < ds.length then none
    else if r3.dropWhile isWs = [] then some (ls ++ ws ++ ds) else none

/-- `LP_SLASH.match`; returns `(group 1, group 2)`. -/
def matchSlash (s : List Char) : Option (List Char × List Char) :=
  let s1 := s.dropWhile isWs
  let g1 := s1.takeWhile isAlnum
  if g1 = [] then none
  else
    match (s1.dropWhile isAlnum).dropWhile isWs with
    | '/' :: r2 => (matchPlanEnd (r2.dropWhile isWs)).map (fun g2 => (g1, g2))
    | _ => none

/-- Core of `LP_SPACE` after the optional `L`/`LOT` marker:
`([A-Za-z0-9]+)\s+(plan)\s*$`. -/
def matchSpaceCore (s : List Char) : Option (List Char × List Char) :=
  let g1 := s.takeWhile isAlnum
  if g1 = [] then none
  else
    let r := s.dropWhile isAlnum
    if r.takeWhile isWs = [] then none
    else (matchPlanEnd (r.dropWhile isWs)).map (fun g2 => (g1, g2))

/-- Core of `LP_TIGHT` after the optional marker: the lazy group grows
one character at a time; `acc` holds the characters taken so far. -/
def tightGo : List Char → List Char → Option (List Char × List Char)
  | [], _ => none
  | c :: r, acc =>
    if isAlnum c then
      match matchPlanEnd r with
      | some g2 => some (acc ++ [c], g2)
      | none => tightGo r (acc ++ [c])
    else none

def matchTightCore (s : List Char) : Option (List Char × List Char) :=
  tightGo s []

/-- The `LOT` branch of the optional marker `(?:L(?:OT)?\s*)?`. -/
def tryMarkerLOT (core : List Char → Option (List Char × List Char))
    (s1 : List Char) : Option (List Char × List Char) :=
  match s1 with
  | c1 :: c2 :: c3 :: r =>
    if (c1 = 'L' || c1 = 'l') && (c2 = 'O' || c2 = 'o') &&
        (c3 = 'T' || c3 = 't') then
      core (r.dropWhile isWs)
    else none
  | _ => none

/-- The bare-`L` branch of the optional marker. -/
def tryMarkerL (core : List Char → Option (List Char × List Char))
    (s1 : List Char) : Option (List Char × List Char) :=
  match s1 with
  | c1 :: r => if c1 = 'L' || c1 = 'l' then core (r.dropWhile isWs) else none
  | _ => none

/-- The optional marker `(?:L(?:OT)?\s*)?` (case-insensitive), tried in
backtracking order `LOT`, `L`, absent, in front of a core matcher. -/
def withLotMarker (core : List Char → Option (List Char × List Char))
    (s : List Char) : Option (List Char × List Char) :=
  let s1 := s.dropWhile isWs
  match tryMarkerLOT core s1 with
  | some x => some x
  | none =>
    match tryMarkerL core s1 with
    | some x => some x
    | none => core s1

def matchSpace (s : List Char) : Option (List Char × List Char) :=
  withLotMarker matchSpaceCore s

def matchTight (s : List Char) : Option (List Char × List Char) :=
  withLotMarker matchTightCore s

/-- `f"{m.group(1).upper().lstrip('L')}/{m.group(2).upper().replace(' ', '')}"` -/
def mkOut (g1 g2 : List Char) : List Char :=
  lstripL (g1.map toUpper) ++ '/' :: removeSpaces (g2.map toUpper)

/-- `normalize_lotplan` (parcel_resolver.py lines 34–67) on character
lists: three regexes in priority order, then the slash-split fallback. -/
def normalizeChars (t : List Char) : List (List Char) :=
  let s := stripWs t
  match matchSlash s with
  | some (g1, g2) => [mkOut g1 g2]
  | none =>
  match matchSpace s with
  | some (g1, g2) => [mkOut g1 g2]
  | none =>
  match matchTight s with
  | some (g1, g2) => [mkOut g1 g2]
  | none =>
  if '/' ∈ s then
    let a := stripWs (s.takeWhile (fun c => c ≠ '/'))
    let b := stripWs ((s.dropWhile (fun c => c ≠ '/')).tail)
    [a.map toUpper ++ '/' :: removeSpaces (b.map toUpper)]
  else []

/-- `normalize_lotplan` on Lean strings. -/
def normalize_lotplan (s : String) : List String :=
  (normalizeChars s.data).map (fun l => String.mk l)

/-- The text before the first `/` of a normalised output. -/
def lotPart (l : List Char) : List Char := l.takeWhile (fun c => c ≠ '/')

example : normalize_lotplan "3RP67254" = ["3/RP67254"] := by decide
example : normalize_lotplan "3/RP67254" = ["3/RP67254"] := by decide
example : normalize_lotplan "3 RP67254" = ["3/RP67254"] := by decide
example : normalize_lotplan "L2 RP53435" = ["2/RP53435"] := by decide
example : normalize_lotplan "Lot 2 RP53435" = ["2/RP53435"] := by decide
example : normalize_lotplan "???" = [] := by decide
example : normalize_lotplan "3/RP 67254" = ["3/RP67254"] := by decide
example : normalize_lotplan "L1/A B1" = ["L1/AB1"] := by decide
example : normalize_lotplan "L1/AB1" = ["1/AB1"] := by decide
example : normalize_lotplan "LOT1" = ["O/T1"] := by decide
example : normalize_lotplan "LOTLOT2RP1" = ["OT2/RP1"] := by decide
example : normalize_lotplan "12AB34CD56" = ["12AB34/CD56"] := by decide
example : normalize_lotplan "AB /C \t 1" = ["AB/C\t1"] := by decide
example : normalize_lotplan "  3  rp 67254  " = ["3/RP67254"] := by decide
example : normalize_lotplan "L OT 3 RP1" = [] := by decide
example : normalize_lotplan " / " = ["/"] := by decide
example : normalize_lotplan "a//b1" = ["A//B1"] := by decide
example : normalize_lotplan "9/ab12345678" = ["9/AB12345678"] := by decide
example : normalize_lotplan "ABCDE1/x" = ["ABCDE1/X"] := by decide
example : normalize_lotplan "0L5/SP1234567" = ["0L5/SP1234567"] := by decide
example : normalize_lotplan "lab/de f1" = ["LAB/DEF1"] := by decide
example : normalize_lotplan "L/RP1" = ["/RP1"] := by decide
example : normalize_lotplan "LL2 RP1" = ["2/RP1"] := by decide
example : normalize_lotplan "LOT 5/RP1" = ["LOT 5/RP1"] := by decide
example : normalize_lotplan "A B/C D1" = ["A B/CD1"] := by decide
example : normalize_lotplan "3/RP67254/extra" = ["3/RP67254/EXTRA"] := by decide

/-! ## Character-class lemmas -/

theorem char_eq_of_toNat_eq {c d : Char} (h : c.toNat = d.toNat) : c = d := by
  have hc := Char.ofNat_toNat c
  rw [h, Char.ofNat_toNat d] at hc
  exact hc.symm

theorem toNat_ofNat_valid {n : Nat} (h : n.isValidChar) :
    (Char.ofNat n).toNat = n := by
  simp only [Char.ofNat, dif_pos h, Char.ofNatAux, Char.toNat, UInt32.toNat]
  rfl

theorem toUpper_toNat_of_lower {c : Char} (h : isLowerAlpha c = true) :
    (toUpper c).toNat = c.toNat - 32 := by
  have hb : 97 ≤ c.toNat ∧ c.toNat ≤ 122 := by
    simpa [isLowerAlpha, Bool.and_eq_true, decide_eq_true_eq] using h
  have hv : (c.toNat - 32).isValidChar := Or.inl (by omega)
  simp only [toUpper, if_pos h]
  exact toNat_ofNat_valid hv

theorem toUpper_eq_self_of_not_lower {c : Char} (h : isLowerAlpha c = false) :
    toUpper c = c := by
  simp [toUpper, h]

theorem lower_bounds {c : Char} (h : isLowerAlpha c = true) :
    97 ≤ c.toNat ∧ c.toNat ≤ 122 := by
  simpa [isLowerAlpha, Bool.and_eq_true, decide_eq_true_eq] using h

theorem not_lower_toUpper (c : Char) : isLowerAlpha (toUpper c) = false := by
  by_cases h : isLowerAlpha c = true
  · have h1 := toUpper_toNat_of_lower h
    have h2 := lower_bounds h
    rw [Bool.eq_false_iff]
    intro hcon
    simp only [isLowerAlpha, h1, Bool.and_eq_true, decide_eq_true_eq] at hcon
    omega
  · rw [toUpper_eq_self_of_not_lower (by simpa using h)]
    simpa using h

theorem toUpper_toUpper (c : Char) : toUpper (toUpper c) = toUpper c :=
  toUpper_eq_self_of_not_lower (not_lower_toUpper c)

theorem isWs_toUpper (c : Char) : isWs (toUpper c) = isWs c := by
  by_cases h : isLowerAlpha c = true
  · have h1 := toUpper_toNat_of_lower h
    have h2 := lower_bounds h
    have hl : isWs (toUpper c) = false := by
      rw [Bool.eq_false_iff]
      intro hcon
      simp only [isWs, h1, Bool.or_eq_true, decide_eq_true_eq] at hcon
      omega
    have hr : isWs c = false := by
      rw [Bool.eq_false_iff]
      intro hcon
      simp only [isWs, Bool.or_eq_true, decide_eq_true_eq] at hcon
      omega
    rw [hl, hr]
  · rw [toUpper_eq_self_of_not_lower (by simpa using h)]

theorem isAlpha_toUpper (c : Char) : isAlpha (toUpper c) = isAlpha c := by
  by_cases h : isLowerAlpha c = true
  · have h1 := toUpper_toNat_of_lower h
    have h2 := lower_bounds h
    have hl : isAlpha (toUpper c) = true := by
      simp only [isAlpha, isUpperAlpha, h1, Bool.or_eq_true, Bool.and_eq_true,
        decide_eq_true_eq]
      left; omega
    have hr : isAlpha c = true := by
      simp only [isAlpha, Bool.or_eq_true]; right; exact h
    rw [hl, hr]
  · rw [toUpper_eq_self_of_not_lower (by simpa using h)]

theorem isDigit_toUpper (c : Char) : isDigit (toUpper c) = isDigit c := by
  by_cases h : isLowerAlpha c = true
  · have h1 := toUpper_toNat_of_lower h
    have h2 := lower_bounds h
    have hl : isDigit (toUpper c) = false := by
      rw [Bool.eq_false_iff]
      intro hcon
      simp only [isDigit, h1, Bool.and_eq_true, decide_eq_true_eq] at hcon
      omega
    have hr : isDigit c = false := by
      rw [Bool.eq_false_iff]
      intro hcon
      simp only [isDigit, Bool.and_eq_true, decide_eq_true_eq] at hcon
      omega
    rw [hl, hr]
  · rw [toUpper_eq_self_of_not_lower (by simpa using h)]

theorem isAlnum_toUpper (c : Char) : isAlnum (toUpper c) = isAlnum c := by
  simp [isAlnum, isAlpha_toUpper, isDigit_toUpper]

theorem toUpper_eq_slash_iff (c : Char) : toUpper c = '/' ↔ c = '/' := by
  constructor
  · intro h
    by_cases hl : isLowerAlpha c = true
    · exfalso
      have h1 := toUpper_toNat_of_lower hl
      have h2 := lower_bounds hl
      have h3 : (toUpper c).toNat = ('/' : Char).toNat := by rw [h]
      have h4 : ('/' : Char).toNat = 47 := by decide
      omega
    · rwa [toUpper_eq_self_of_not_lower (by simpa using hl)] at h
  · intro h; subst h; rfl

theorem toUpper_eq_space_iff (c : Char) : toUpper c = ' ' ↔ c = ' ' := by
  constructor
  · intro h
    by_cases hl : isLowerAlpha c = true
    · exfalso
      have h1 := toUpper_toNat_of_lower hl
      have h2 := lower_bounds hl
      have h3 : (toUpper c).toNat = (' ' : Char).toNat := by rw [h]
      have h4 : (' ' : Char).toNat = 32 := by decide
      omega
    · rwa [toUpper_eq_self_of_not_lower (by simpa using hl)] at h
  · intro h; subst h; rfl

theorem not_ws_of_alnum {c : Char} (h : isAlnum c = true) : isWs c = false := by
  simp only [isAlnum, isAlpha, isUpperAlpha, isLowerAlpha, isDigit,
    Bool.or_eq_true, Bool.and_eq_true, decide_eq_true_eq] at h
  rw [Bool.eq_false_iff]
  intro hcon
  simp only [isWs, Bool.or_eq_true, decide_eq_true_eq] at hcon
  omega

theorem not_ws_of_alpha {c : Char} (h : isAlpha c = true) : isWs c = false :=
  not_ws_of_alnum (by simp [isAlnum, h])

theorem not_ws_of_digit {c : Char} (h : isDigit c = true) : isWs c = false :=
  not_ws_of_alnum (by simp [isAlnum, h])

theorem alnum_of_alpha {c : Char} (h : isAlpha c = true) : isAlnum c = true := by
  simp [isAlnum, h]

theorem alnum_of_digit {c : Char} (h : isDigit c = true) : isAlnum c = true := by
  simp [isAlnum, h]

theorem not_space_of_alpha {c : Char} (h : isAlpha c = true) : c ≠ ' ' := by
  intro hc; subst hc; exact absurd h (by decide)

theorem not_space_of_digit {c : Char} (h : isDigit c = true) : c ≠ ' ' := by
  intro hc; subst hc; exact absurd h (by decide)

theorem ne_slash_of_alnum {c : Char} (h : isAlnum c = true) : c ≠ '/' := by
  intro hc; subst hc; exact absurd h (by decide)

theorem ne_slash_of_ws {c : Char} (h : isWs c = true) : c ≠ '/' := by
  intro hc; subst hc; exact absurd h (by decide)

theorem not_alpha_of_digit {c : Char} (h : isDigit c = true) :
    isAlpha c = false := by
  simp only [isDigit, Bool.and_eq_true, decide_eq_true_eq] at h
  rw [Bool.eq_false_iff]
  intro hcon
  simp only [isAlpha, isUpperAlpha, isLowerAlpha, Bool.or_eq_true,
    Bool.and_eq_true, decide_eq_true_eq] at hcon
  omega

theorem not_alpha_of_ws {c : Char} (h : isWs c = true) : isAlpha c = false := by
  simp only [isWs, Bool.or_eq_true, decide_eq_true_eq] at h
  rw [Bool.eq_false_iff]
  intro hcon
  simp only [isAlpha, isUpperAlpha, isLowerAlpha, Bool.or_eq_true,
    Bool.and_eq_true, decide_eq_true_eq] at hcon
  omega

theorem not_digit_of_ws {c : Char} (h : isWs c = true) : isDigit c = false := by
  simp only [isWs, Bool.or_eq_true, decide_eq_true_eq] at h
  rw [Bool.eq_false_iff]
  intro hcon
  simp only [isDigit, Bool.and_eq_true, decide_eq_true_eq] at hcon
  omega

theorem not_alnum_of_ws {c : Char} (h : isWs c = true) : isAlnum c = false := by
  simp [isAlnum, not_alpha_of_ws h, not_digit_of_ws h]

theorem not_lower_of_ws {c : Char} (h : isWs c = true) :
    isLowerAlpha c = false := by
  simp only [isWs, Bool.or_eq_true, decide_eq_true_eq] at h
  rw [Bool.eq_false_iff]
  intro hcon
  simp only [isLowerAlpha, Bool.and_eq_true, decide_eq_true_eq] at hcon
  omega

theorem not_lower_of_digit {c : Char} (h : isDigit c = true) :
    isLowerAlpha c = false := by
  simp only [isDigit, Bool.and_eq_true, decide_eq_true_eq] at h
  rw [Bool.eq_false_iff]
  intro hcon
  simp only [isLowerAlpha, Bool.and_eq_true, decide_eq_true_eq] at hcon
  omega

/-! ## List helpers -/

theorem map_id_of_mem {α : Type} {f : α → α} {l : List α}
    (h : ∀ c ∈ l, f c = c) : l.map f = l := by
  induction l with
  | nil => rfl
  | cons a t ih =>
    simp only [List.map_cons, h a (List.mem_cons_self a t),
      ih (fun c hc => h c (List.mem_cons_of_mem a hc))]

theorem takeWhile_append_exact {α : Type} {p : α → Bool} {u r : List α}
    (hu : ∀ c ∈ u, p c = true) (hr : ∀ c, r.head? = some c → p c = false) :
    (u ++ r).takeWhile p = u ∧ (u ++ r).dropWhile p = r := by
  induction u with
  | nil =>
    cases r with
    | nil => exact ⟨rfl, rfl⟩
    | cons a t =>
      have hna := hr a rfl
      refine ⟨?_, ?_⟩
      · simpa using List.takeWhile_cons_of_neg (p := p) (l := t) (by simp [hna])
      · simpa using List.dropWhile_cons_of_neg (p := p) (l := t) (by simp [hna])
  | cons a t ih =>
    have ha : p a = true := hu a (List.mem_cons_self a t)
    obtain ⟨h1, h2⟩ := ih (fun c hc => hu c (List.mem_cons_of_mem a hc))
    refine ⟨?_, ?_⟩
    · rw [List.cons_append, List.takeWhile_cons_of_pos ha, h1]
    · rw [List.cons_append, List.dropWhile_cons_of_pos ha, h2]

theorem dropWhile_eq_self_head {α : Type} {p : α → Bool} {l : List α}
    (h : ∀ c, l.head? = some c → p c = false) : l.dropWhile p = l := by
  cases l with
  | nil => rfl
  | cons a t => exact List.dropWhile_cons_of_neg (by simp [h a rfl])

theorem takeWhile_eq_nil_head {α : Type} {p : α → Bool} {l : List α}
    (h : ∀ c, l.head? = some c → p c = false) : l.takeWhile p = [] := by
  cases l with
  | nil => rfl
  | cons a t => exact List.takeWhile_cons_of_neg (by simp [h a rfl])

theorem head?_dropWhile_false {α : Type} {p : α → Bool} {l : List α} {c : α}
    (h : (l.dropWhile p).head? = some c) : p c = false := by
  have := List.head?_dropWhile_not p l
  rw [h] at this
  exact this

theorem stripWs_head {l : List Char} {c : Char}
    (h : (stripWs l).head? = some c) : isWs c = false := by
  unfold stripWs at h
  obtain ⟨t, ht⟩ := List.rdropWhile_prefix isWs (l.dropWhile isWs)
  cases hsw : List.rdropWhile isWs (l.dropWhile isWs) with
  | nil => rw [hsw] at h; cases h
  | cons a rest =>
    rw [hsw] at h
    have hac : a = c := by simpa using h
    rw [hsw] at ht
    have hl' : (l.dropWhile isWs).head? = some c := by
      rw [← ht, List.cons_append]
      simp [hac]
    exact head?_dropWhile_false hl'

theorem stripWs_getLast {l : List Char} {c : Char}
    (h : (stripWs l).getLast? = some c) : isWs c = false := by
  unfold stripWs at h
  have hne : List.rdropWhile isWs (l.dropWhile isWs) ≠ [] := by
    intro hc; rw [hc] at h; cases h
  have hlast := List.rdropWhile_last_not isWs (l.dropWhile isWs) hne
  have hcl : (List.rdropWhile isWs (l.dropWhile isWs)).getLast hne = c := by
    have := List.getLast?_eq_getLast (List.rdropWhile isWs (l.dropWhile isWs)) hne
    rw [this] at h
    simpa using h
  rw [hcl] at hlast
  simpa using hlast

theorem stripWs_eq_self {l : List Char}
    (h1 : ∀ c, l.head? = some c → isWs c = false)
    (h2 : ∀ c, l.getLast? = some c → isWs c = false) : stripWs l = l := by
  unfold stripWs
  rw [dropWhile_eq_self_head h1]
  rw [List.rdropWhile_eq_self_iff]
  intro hl
  have := h2 (l.getLast hl) (List.getLast?_eq_getLast l hl)
  simp [this]

theorem head?_filter_of_head {α : Type} {p : α → Bool} {l : List α} {c : α}
    (hh : l.head? = some c) (hc : p c = true) : (l.filter p).head? = some c := by
  cases l with
  | nil => cases hh
  | cons a t =>
    have hac : a = c := by simpa using hh
    subst hac
    rw [List.filter_cons_of_pos hc]
    rfl

theorem getLast?_filter_of_getLast {α : Type} {p : α → Bool} {l : List α} {c : α}
    (hh : l.getLast? = some c) (hc : p c = true) :
    (l.filter p).getLast? = some c := by
  rw [← List.head?_reverse] at hh ⊢
  rw [← List.filter_reverse]
  exact head?_filter_of_head hh hc

theorem split_at_first_slash {x1 y1 x2 y2 : List Char}
    (h : x1 ++ '/' :: y1 = x2 ++ '/' :: y2)
    (h1 : '/' ∉ x1) (h2 : '/' ∉ x2) : x1 = x2 ∧ y1 = y2 := by
  induction x1 generalizing x2 with
  | nil =>
    cases x2 with
    | nil => simpa using h
    | cons b t2 =>
      simp only [List.nil_append, List.cons_append, List.cons.injEq] at h
      exact absurd (h.1 ▸ List.mem_cons_self b t2) h2
  | cons a t1 ih =>
    cases x2 with
    | nil =>
      simp only [List.cons_append, List.nil_append, List.cons.injEq] at h
      exact absurd (h.1 ▸ List.mem_cons_self a t1) h1
    | cons b t2 =>
      simp only [List.cons_append, List.cons.injEq] at h
      obtain ⟨hab, ht⟩ := h
      obtain ⟨hx, hy⟩ := ih ht (fun hc => h1 (List.mem_cons_of_mem a hc))
        (fun hc => h2 (List.mem_cons_of_mem b hc))
      exact ⟨by rw [hab, hx], hy⟩

/-! ## Shape of the plan pattern -/

/-- The decomposition of a `([A-Za-z]{1,4}\s*\d{1,7})` group into its
letter, whitespace and digit runs. -/
def planShapeParts (ls ws ds : List Char) : Prop :=
  (∀ c ∈ ls, isAlpha c = true) ∧ 1 ≤ ls.length ∧ ls.length ≤ 4 ∧
  (∀ c ∈ ws, isWs c = true) ∧
  (∀ c ∈ ds, isDigit c = true) ∧ 1 ≤ ds.length ∧ ds.length ≤ 7

theorem matchPlanEnd_construct {ls ws ds : List Char}
    (h : planShapeParts ls ws ds) :
    matchPlanEnd (ls ++ (ws ++ ds)) = some (ls ++ ws ++ ds) := by
  obtain ⟨hls, hl1, hl4, hws, hds, hd1, hd7⟩ := h
  have hr1 : ∀ c, (ws ++ ds).head? = some c → isAlpha c = false := by
    intro c hc
    cases ws with
    | cons w t =>
      have hwc : w = c := by simpa using hc
      subst hwc
      exact not_alpha_of_ws (hws w (List.mem_cons_self w t))
    | nil =>
      simp only [List.nil_append] at hc
      cases ds with
      | nil => cases hc
      | cons d t =>
        have hdc : d = c := by simpa using hc
        subst hdc
        exact not_alpha_of_digit (hds d (List.mem_cons_self d t))
  obtain ⟨hTW1, hDW1⟩ := takeWhile_append_exact (p := isAlpha) hls hr1
  have hr2 : ∀ c, ds.head? = some c → isWs c = false := by
    intro c hc
    cases ds with
    | nil => cases hc
    | cons d t =>
      have hdc : d = c := by simpa using hc
      subst hdc
      exact not_ws_of_digit (hds d (List.mem_cons_self d t))
  obtain ⟨hTW2, hDW2⟩ := takeWhile_append_exact (p := isWs) hws hr2
  have hTW3 : ds.takeWhile isDigit = ds := List.takeWhile_eq_self_iff.mpr hds
  have hDW3 : ds.dropWhile isDigit = [] := List.dropWhile_eq_nil_iff.mpr hds
  have c1 : (decide (ls.length < 1) || decide (4 < ls.length)) = false := by
    simp only [Bool.or_eq_false_iff, decide_eq_false_iff_not]
    omega
  have c2 : (decide (ds.length < 1) || decide (7 < ds.length)) = false := by
    simp only [Bool.or_eq_false_iff, decide_eq_false_iff_not]
    omega
  simp only [matchPlanEnd, hTW1, hDW1, hTW2, hDW2, hTW3, hDW3, c1, c2,
    List.dropWhile_nil, Bool.false_eq_true, if_false, if_true]

theorem matchPlanEnd_some_decomp {s g : List Char} (h : matchPlanEnd s = some g) :
    ∃ ls ws ds tws, s = ls ++ (ws ++ (ds ++ tws)) ∧ g = ls ++ ws ++ ds ∧
      planShapeParts ls ws ds ∧ (∀ c ∈ tws, isWs c = true) := by
  simp only [matchPlanEnd] at h
  refine ⟨s.takeWhile isAlpha, (s.dropWhile isAlpha).takeWhile isWs,
    ((s.dropWhile isAlpha).dropWhile isWs).takeWhile isDigit,
    ((s.dropWhile isAlpha).dropWhile isWs).dropWhile isDigit, ?_, ?_, ?_, ?_⟩
  · rw [List.takeWhile_append_dropWhile, List.takeWhile_append_dropWhile,
      List.takeWhile_append_dropWhile]
  · split at h
    · cases h
    · split at h
      · cases h
      · split at h
        · simpa using h.symm
        · cases h
  · split at h
    case isTrue => cases h
    case isFalse hc1 =>
      split at h
      case isTrue => cases h
      case isFalse hc2 =>
        simp only [Bool.or_eq_true, decide_eq_true_eq, not_or, not_lt] at hc1 hc2
        refine ⟨fun c hc => List.mem_takeWhile_imp hc, by omega, by omega,
          fun c hc => List.mem_takeWhile_imp hc,
          fun c hc => List.mem_takeWhile_imp hc, by omega, by omega⟩
  · split at h
    · cases h
    · split at h
      · cases h
      · split at h
        · rename_i hnil
          exact List.dropWhile_eq_nil_iff.mp hnil
        · cases h

theorem matchPlanEnd_chars {s g : List Char} (h : matchPlanEnd s = some g) :
    ∀ c ∈ s, isWs c = true ∨ isAlnum c = true := by
  obtain ⟨ls, ws, ds, tws, hs, -, ⟨hls, -, -, hws, hds, -, -⟩, htws⟩ :=
    matchPlanEnd_some_decomp h
  intro c hc
  rw [hs] at hc
  simp only [List.mem_append] at hc
  rcases hc with hc | hc | hc | hc
  · exact Or.inr (alnum_of_alpha (hls c hc))
  · exact Or.inl (hws c hc)
  · exact Or.inr (alnum_of_digit (hds c hc))
  · exact Or.inl (htws c hc)

/-! ## `matchSlash`: construction and decomposition -/

theorem matchSlash_construct {u ls ws ds : List Char}
    (hu : ∀ c ∈ u, isAlnum c = true) (hne : u ≠ [])
    (hp : planShapeParts ls ws ds) :
    matchSlash (u ++ '/' :: (ls ++ (ws ++ ds))) = some (u, ls ++ ws ++ ds) := by
  have hlsne : ls ≠ [] := by
    obtain ⟨-, hl1, -⟩ := hp
    intro hc; rw [hc] at hl1; simp at hl1
  have hsd : ∀ c, (u ++ '/' :: (ls ++ (ws ++ ds))).head? = some c →
      isWs c = false := by
    intro c hc
    cases u with
    | nil => exact absurd rfl hne
    | cons a t =>
      have hac : a = c := by simpa using hc
      subst hac
      exact not_ws_of_alnum (hu a (List.mem_cons_self a t))
  obtain ⟨hTW, hDW⟩ := takeWhile_append_exact (p := isAlnum)
    (r := '/' :: (ls ++ (ws ++ ds))) hu
    (fun c hc => by
      have hcs : '/' = c := by simpa using hc
      subst hcs; decide)
  have hr3 : ∀ c, (ls ++ (ws ++ ds)).head? = some c → isWs c = false := by
    intro c hc
    cases ls with
    | nil => exact absurd rfl hlsne
    | cons a t =>
      have hac : a = c := by simpa using hc
      subst hac
      exact not_ws_of_alpha (hp.1 a (List.mem_cons_self a t))
  simp only [matchSlash]
  rw [dropWhile_eq_self_head hsd, hTW, hDW, if_neg hne,
    List.dropWhile_cons_of_neg (by decide)]
  show Option.map (fun g2 => (u, g2))
      (matchPlanEnd (List.dropWhile isWs (ls ++ (ws ++ ds)))) =
    some (u, ls ++ ws ++ ds)
  rw [dropWhile_eq_self_head hr3, matchPlanEnd_construct hp]
  rfl

theorem matchSlash_some_decomp {s g1 g2 : List Char}
    (h : matchSlash s = some (g1, g2)) :
    ∃ w0 w1 r2, s = w0 ++ (g1 ++ (w1 ++ '/' :: r2)) ∧
      (∀ c ∈ w0, isWs c = true) ∧ (∀ c ∈ g1, isAlnum c = true) ∧ g1 ≠ [] ∧
      (∀ c ∈ w1, isWs c = true) ∧
      ∃ w2 ls ws ds tws, r2 = w2 ++ (ls ++ (ws ++ (ds ++ tws))) ∧
        (∀ c ∈ w2, isWs c = true) ∧ g2 = ls ++ ws ++ ds ∧
        planShapeParts ls ws ds ∧ (∀ c ∈ tws, isWs c = true) := by
  simp only [matchSlash] at h
  split at h
  · cases h
  rename_i hg1ne
  split at h
  case h_2 => cases h
  case h_1 r2 heq =>
    cases hpe : matchPlanEnd (r2.dropWhile isWs) with
    | none => rw [hpe] at h; cases h
    | some g2' =>
      rw [hpe] at h
      simp only [Option.map_some', Option.some.injEq, Prod.mk.injEq] at h
      obtain ⟨hg1, hg2⟩ := h
      obtain ⟨ls, ws, ds, tws, hr2', hg2', hshape, htws⟩ :=
        matchPlanEnd_some_decomp hpe
      refine ⟨s.takeWhile isWs, ((s.dropWhile isWs).dropWhile isAlnum).takeWhile isWs,
        r2, ?_, ?_, ?_, ?_, ?_, r2.takeWhile isWs, ls, ws, ds, tws, ?_, ?_, ?_,
        hshape, htws⟩
      · conv_lhs => rw [← List.takeWhile_append_dropWhile (p := isWs) (l := s)]
        congr 1
        conv_lhs =>
          rw [← List.takeWhile_append_dropWhile (p := isAlnum)
            (l := s.dropWhile isWs)]
        rw [hg1]
        congr 1
        conv_lhs =>
          rw [← List.takeWhile_append_dropWhile (p := isWs)
            (l := (s.dropWhile isWs).dropWhile isAlnum)]
        rw [heq]
      · exact fun c hc => List.mem_takeWhile_imp hc
      · exact fun c hc => List.mem_takeWhile_imp (by rw [hg1]; exact hc)
      · rw [← hg1]; exact hg1ne
      · exact fun c hc => List.mem_takeWhile_imp hc
      · conv_lhs =>
          rw [← List.takeWhile_append_dropWhile (p := isWs) (l := r2)]
        rw [hr2']
      · exact fun c hc => List.mem_takeWhile_imp hc
      · rw [← hg2, hg2']

/-! ## Shape of the groups returned by the three matchers -/

/-- Both captured groups have the character-class shape guaranteed by the
regexes: group 1 is a non-empty alphanumeric run, group 2 decomposes as
letters, whitespace, digits. -/
def groupsShape (g1 g2 : List Char) : Prop :=
  (∀ c ∈ g1, isAlnum c = true) ∧ g1 ≠ [] ∧
  ∃ ls ws ds, g2 = ls ++ ws ++ ds ∧ planShapeParts ls ws ds

theorem matchSlash_groups {s g1 g2 : List Char}
    (h : matchSlash s = some (g1, g2)) : groupsShape g1 g2 := by
  obtain ⟨w0, w1, r2, -, -, hg1, hne, -, w2, ls, ws, ds, tws, -, -, hg2, hsh, -⟩ :=
    matchSlash_some_decomp h
  exact ⟨hg1, hne, ls, ws, ds, hg2, hsh⟩

theorem matchSpaceCore_groups {s g1 g2 : List Char}
    (h : matchSpaceCore s = some (g1, g2)) : groupsShape g1 g2 := by
  simp only [matchSpaceCore] at h
  split at h
  · cases h
  split at h
  · cases h
  rename_i hg1ne hwsne
  cases hpe : matchPlanEnd ((s.dropWhile isAlnum).dropWhile isWs) with
  | none => rw [hpe] at h; cases h
  | some g2' =>
    rw [hpe] at h
    simp only [Option.map_some', Option.some.injEq, Prod.mk.injEq] at h
    obtain ⟨hg1, hg2⟩ := h
    obtain ⟨ls, ws, ds, tws, -, hg2', hsh, -⟩ := matchPlanEnd_some_decomp hpe
    refine ⟨fun c hc => List.mem_takeWhile_imp (by rw [hg1]; exact hc),
      ?_, ls, ws, ds, by rw [← hg2, hg2'], hsh⟩
    rw [← hg1]; exact hg1ne

theorem matchSpaceCore_chars {s : List Char} {x : List Char × List Char}
    (h : matchSpaceCore s = some x) :
    ∀ c ∈ s, isWs c = true ∨ isAlnum c = true := by
  simp only [matchSpaceCore] at h
  split at h
  · cases h
  split at h
  · cases h
  cases hpe : matchPlanEnd ((s.dropWhile isAlnum).dropWhile isWs) with
  | none => rw [hpe] at h; cases h
  | some g2' =>
    intro c hc
    have hsplit : s = s.takeWhile isAlnum ++
        ((s.dropWhile isAlnum).takeWhile isWs ++
          (s.dropWhile isAlnum).dropWhile isWs) := by
      rw [List.takeWhile_append_dropWhile, List.takeWhile_append_dropWhile]
    rw [hsplit] at hc
    simp only [List.mem_append] at hc
    rcases hc with hc | hc | hc
    · exact Or.inr (List.mem_takeWhile_imp hc)
    · exact Or.inl (List.mem_takeWhile_imp hc)
    · exact matchPlanEnd_chars hpe c hc

theorem tightGo_groups {s : List Char} : ∀ {acc g1 g2 : List Char},
    tightGo s acc = some (g1, g2) → (∀ c ∈ acc, isAlnum c = true) →
    groupsShape g1 g2 := by
  induction s with
  | nil => intro acc g1 g2 h _; cases h
  | cons c r ih =>
    intro acc g1 g2 h hacc
    simp only [tightGo] at h
    split at h
    case isFalse => cases h
    case isTrue hal =>
      have hacc' : ∀ d ∈ acc ++ [c], isAlnum d = true := by
        intro d hd
        rcases List.mem_append.mp hd with hd | hd
        · exact hacc d hd
        · rw [List.mem_singleton.mp hd]; exact hal
      cases hpe : matchPlanEnd r with
      | some g2' =>
        rw [hpe] at h
        simp only [Option.some.injEq, Prod.mk.injEq] at h
        obtain ⟨hg1, hg2⟩ := h
        obtain ⟨ls, ws, ds, tws, -, hg2', hsh, -⟩ := matchPlanEnd_some_decomp hpe
        refine ⟨fun d hd => hacc' d (by rw [hg1]; exact hd), ?_, ls, ws, ds,
          by rw [← hg2, hg2'], hsh⟩
        rw [← hg1]; simp
      | none =>
        rw [hpe] at h
        exact ih h hacc'

theorem tightGo_chars {s : List Char} : ∀ {acc : List Char}
    {x : List Char × List Char}, tightGo s acc = some x →
    ∀ c ∈ s, isWs c = true ∨ isAlnum c = true := by
  induction s with
  | nil => intro acc x h; cases h
  | cons c r ih =>
    intro acc x h d hd
    simp only [tightGo] at h
    split at h
    case isFalse => cases h
    case isTrue hal =>
      rcases List.mem_cons.mp hd with hd | hd
      · subst hd; exact Or.inr hal
      · cases hpe : matchPlanEnd r with
        | some g2' => exact matchPlanEnd_chars hpe d hd
        | none =>
          rw [hpe] at h
          exact ih h d hd

theorem matchTightCore_groups {s g1 g2 : List Char}
    (h : matchTightCore s = some (g1, g2)) : groupsShape g1 g2 :=
  tightGo_groups h (by intro c hc; cases hc)

theorem matchTightCore_chars {s : List Char} {x : List Char × List Char}
    (h : matchTightCore s = some x) :
    ∀ c ∈ s, isWs c = true ∨ isAlnum c = true :=
  tightGo_chars h

theorem withLotMarker_groups
    {core : List Char → Option (List Char × List Char)}
    (hcore : ∀ {s' : List Char} {g1 g2 : List Char},
      core s' = some (g1, g2) → groupsShape g1 g2)
    {s g1 g2 : List Char} (h : withLotMarker core s = some (g1, g2)) :
    groupsShape g1 g2 := by
  simp only [withLotMarker] at h
  split at h
  case h_1 x heq =>
    cases h
    simp only [tryMarkerLOT] at heq
    split at heq
    case h_1 =>
      split at heq
      · exact hcore heq
      · cases heq
    case h_2 => cases heq
  case h_2 =>
    split at h
    case h_1 x heq =>
      cases h
      simp only [tryMarkerL] at heq
      split at heq
      case h_1 =>
        split at heq
        · exact hcore heq
        · cases heq
      case h_2 => cases heq
    case h_2 => exact hcore h

theorem withLotMarker_chars
    {core : List Char → Option (List Char × List Char)}
    (hcore : ∀ {s' : List Char} {x : List Char × List Char},
      core s' = some x → ∀ c ∈ s', isWs c = true ∨ isAlnum c = true)
    {s : List Char} {x : List Char × List Char}
    (h : withLotMarker core s = some x) :
    ∀ c ∈ s, isWs c = true ∨ isAlnum c = true := by
  have hbase : ∀ c ∈ s.takeWhile isWs, isWs c = true ∨ isAlnum c = true :=
    fun c hc => Or.inl (List.mem_takeWhile_imp hc)
  have hsplit : s = s.takeWhile isWs ++ s.dropWhile isWs :=
    (List.takeWhile_append_dropWhile isWs s).symm
  have hmain : ∀ c ∈ s.dropWhile isWs, isWs c = true ∨ isAlnum c = true := by
    simp only [withLotMarker] at h
    split at h
    case h_1 y heq =>
      simp only [tryMarkerLOT] at heq
      split at heq
      case h_1 d1 d2 d3 rr hcons =>
        split at heq
        case isTrue hlot =>
          intro c hc
          rw [hcons] at hc
          simp only [Bool.and_eq_true, Bool.or_eq_true, decide_eq_true_eq] at hlot
          obtain ⟨⟨h1, h2⟩, h3⟩ := hlot
          rcases List.mem_cons.mp hc with hd | hd
          · subst hd
            rcases h1 with h1 | h1 <;> rw [h1] <;> exact Or.inr (by decide)
          rcases List.mem_cons.mp hd with hd | hd
          · subst hd
            rcases h2 with h2 | h2 <;> rw [h2] <;> exact Or.inr (by decide)
          rcases List.mem_cons.mp hd with hd | hd
          · subst hd
            rcases h3 with h3 | h3 <;> rw [h3] <;> exact Or.inr (by decide)
          · have hrsplit : rr = rr.takeWhile isWs ++ rr.dropWhile isWs :=
              (List.takeWhile_append_dropWhile isWs rr).symm
            rw [hrsplit] at hd
            rcases List.mem_append.mp hd with hd | hd
            · exact Or.inl (List.mem_takeWhile_imp hd)
            · exact hcore heq c hd
        case isFalse => cases heq
      case h_2 => cases heq
    case h_2 =>
      split at h
      case h_1 y heq =>
        simp only [tryMarkerL] at heq
        split at heq
        case h_1 d1 rr hcons =>
          split at heq
          case isTrue hl =>
            intro c hc
            rw [hcons] at hc
            simp only [Bool.or_eq_true, decide_eq_true_eq] at hl
            rcases List.mem_cons.mp hc with hd | hd
            · subst hd
              rcases hl with hl | hl <;> rw [hl] <;> exact Or.inr (by decide)
            · have hrsplit : rr = rr.takeWhile isWs ++ rr.dropWhile isWs :=
                (List.takeWhile_append_dropWhile isWs rr).symm
              rw [hrsplit] at hd
              rcases List.mem_append.mp hd with hd | hd
              · exact Or.inl (List.mem_takeWhile_imp hd)
              · exact hcore heq c hd
          case isFalse => cases heq
        case h_2 => cases heq
      case h_2 => exact hcore h
  intro c hc
  rw [hsplit] at hc
  rcases List.mem_append.mp hc with hc | hc
  · exact hbase c hc
  · exact hmain c hc

theorem matchSpace_groups {s g1 g2 : List Char}
    (h : matchSpace s = some (g1, g2)) : groupsShape g1 g2 :=
  withLotMarker_groups (fun hc => matchSpaceCore_groups hc) h

theorem matchTight_groups {s g1 g2 : List Char}
    (h : matchTight s = some (g1, g2)) : groupsShape g1 g2 :=
  withLotMarker_groups (fun hc => matchTightCore_groups hc) h

theorem matchSpace_no_slash {s : List Char} {x : List Char × List Char}
    (h : matchSpace s = some x) : '/' ∉ s := by
  intro hmem
  rcases withLotMarker_chars (fun hc => matchSpaceCore_chars hc) h '/' hmem with
    hws | hal
  · exact absurd hws (by decide)
  · exact absurd hal (by decide)

theorem matchTight_no_slash {s : List Char} {x : List Char × List Char}
    (h : matchTight s = some x) : '/' ∉ s := by
  intro hmem
  rcases withLotMarker_chars (fun hc => matchTightCore_chars hc) h '/' hmem with
    hws | hal
  · exact absurd hws (by decide)
  · exact absurd hal (by decide)

/-! ## Renormalising outputs -/

theorem lstripL_head {l : List Char} {c : Char}
    (h : (lstripL l).head? = some c) : c ≠ 'L' := by
  have := head?_dropWhile_false h
  simpa using this

theorem lstripL_eq_self {l : List Char} (h : l.head? ≠ some 'L') :
    lstripL l = l := by
  apply dropWhile_eq_self_head
  intro c hc
  have hcl : c ≠ 'L' := fun he => h (he ▸ hc)
  simpa using hcl

theorem mem_lstripL {l : List Char} {c : Char} (h : c ∈ lstripL l) : c ∈ l :=
  (List.dropWhile_sublist _).subset h

theorem upperFixed_map {l : List Char} {c : Char} (hc : c ∈ l.map toUpper) :
    toUpper c = c := by
  obtain ⟨d, -, hd⟩ := List.mem_map.mp hc
  rw [← hd, toUpper_toUpper]

theorem getLast?_append_right {α : Type} {l1 l2 : List α} {c : α}
    (h : l2.getLast? = some c) : (l1 ++ l2).getLast? = some c := by
  rw [List.getLast?_append, h]; rfl

/-- Uppercasing then despacing a plan group preserves its shape. -/
theorem planUpper_decomp {ls ws ds : List Char} (hp : planShapeParts ls ws ds) :
    removeSpaces ((ls ++ ws ++ ds).map toUpper) =
      ls.map toUpper ++ (ws.filter (fun c => c ≠ ' ') ++ ds) ∧
    planShapeParts (ls.map toUpper) (ws.filter (fun c => c ≠ ' ')) ds := by
  obtain ⟨hls, hl1, hl4, hws, hds, hd1, hd7⟩ := hp
  have hwsfix : ws.map toUpper = ws := map_id_of_mem (fun c hc =>
    toUpper_eq_self_of_not_lower (not_lower_of_ws (hws c hc)))
  have hdsfix : ds.map toUpper = ds := map_id_of_mem (fun c hc =>
    toUpper_eq_self_of_not_lower (not_lower_of_digit (hds c hc)))
  have hlsns : (ls.map toUpper).filter (fun c => c ≠ ' ') = ls.map toUpper := by
    apply List.filter_eq_self.mpr
    intro c hc
    obtain ⟨d, hd, hdc⟩ := List.mem_map.mp hc
    have hda : isAlpha (toUpper d) = true := by
      rw [isAlpha_toUpper]; exact hls d hd
    rw [← hdc]
    simpa using not_space_of_alpha hda
  have hdsns : ds.filter (fun c => c ≠ ' ') = ds := by
    apply List.filter_eq_self.mpr
    intro c hc
    simpa using not_space_of_digit (hds c hc)
  constructor
  · simp only [removeSpaces, List.map_append, List.filter_append, hwsfix,
      hdsfix, hlsns, hdsns, List.append_assoc]
  · refine ⟨?_, ?_, ?_, ?_, ?_, ?_, ?_⟩
    · intro c hc
      obtain ⟨d, hd, hdc⟩ := List.mem_map.mp hc
      rw [← hdc, isAlpha_toUpper]; exact hls d hd
    · simpa using hl1
    · simpa using hl4
    · intro c hc
      exact hws c (List.mem_of_mem_filter hc)
    · exact hds
    · exact hd1
    · exact hd7

/-- An output of `mkOut` on shapely groups renormalises to itself. -/
theorem normalizeChars_mkOut {g1 g2 : List Char} (h : groupsShape g1 g2) :
    normalizeChars (mkOut g1 g2) = [mkOut g1 g2] := by
  obtain ⟨hg1, hg1ne, ls, ws, ds, hg2, hp⟩ := h
  obtain ⟨hdecomp, hp'⟩ := planUpper_decomp hp
  obtain ⟨hls', hl1', hl4', hws', hds', hd1', hd7'⟩ := hp'
  have hdne : ds ≠ [] := by
    intro hc; rw [hc] at hd1'; simp at hd1'
  have hlsne' : ls.map toUpper ≠ [] := by
    intro hc; rw [hc] at hl1'; simp at hl1'
  have hy : mkOut g1 g2 = lstripL (g1.map toUpper) ++ '/' ::
      (ls.map toUpper ++ (ws.filter (fun c => c ≠ ' ') ++ ds)) := by
    rw [mkOut, hg2, hdecomp]
  -- abbreviations
  set U := lstripL (g1.map toUpper) with hU
  set P := ls.map toUpper ++ (ws.filter (fun c => c ≠ ' ') ++ ds) with hP
  have hUfix : ∀ c ∈ U, toUpper c = c := fun c hc =>
    upperFixed_map (mem_lstripL hc)
  have hUal : ∀ c ∈ U, isAlnum c = true := by
    intro c hc
    obtain ⟨d, hd, hdc⟩ := List.mem_map.mp (mem_lstripL hc)
    rw [← hdc, isAlnum_toUpper]; exact hg1 d hd
  have hPfix : ∀ c ∈ P, toUpper c = c := by
    intro c hc
    rw [hP] at hc
    rcases List.mem_append.mp hc with hc | hc
    · exact upperFixed_map hc
    rcases List.mem_append.mp hc with hc | hc
    · exact toUpper_eq_self_of_not_lower (not_lower_of_ws (hws' c hc))
    · exact toUpper_eq_self_of_not_lower (not_lower_of_digit (hds' c hc))
  have hPns : ∀ c ∈ P, c ≠ ' ' := by
    intro c hc
    rw [hP] at hc
    rcases List.mem_append.mp hc with hc | hc
    · exact not_space_of_alpha (hls' c hc)
    rcases List.mem_append.mp hc with hc | hc
    · simp only [List.mem_filter, decide_eq_true_eq] at hc
      exact hc.2
    · exact not_space_of_digit (hds' c hc)
  have hPlast : ∃ d, P.getLast? = some d ∧ isDigit d = true := by
    refine ⟨ds.getLast hdne, ?_, hds' _ (List.getLast_mem hdne)⟩
    rw [hP]
    exact getLast?_append_right (getLast?_append_right
      (List.getLast?_eq_getLast ds hdne))
  have hPhead : ∃ a, P.head? = some a ∧ isAlpha a = true := by
    cases hlm : ls.map toUpper with
    | nil => exact absurd hlm hlsne'
    | cons a t =>
      refine ⟨a, ?_, hls' a (by rw [hlm]; exact List.mem_cons_self a t)⟩
      rw [hP, hlm]; rfl
  obtain ⟨dl, hdl, hdldig⟩ := hPlast
  obtain ⟨ah, hah, haha⟩ := hPhead
  have hPmapfix : P.map toUpper = P := map_id_of_mem hPfix
  have hPnospace : removeSpaces P = P :=
    List.filter_eq_self.mpr (fun c hc => by simpa using hPns c hc)
  -- strip is the identity on the output
  have hstrip : stripWs (U ++ '/' :: P) = U ++ '/' :: P := by
    apply stripWs_eq_self
    · intro c hc
      cases hUc : U with
      | nil =>
        rw [hUc] at hc
        have : '/' = c := by simpa using hc
        subst this; decide
      | cons u t =>
        rw [hUc] at hc
        have : u = c := by simpa using hc
        subst this
        exact not_ws_of_alnum (hUal u (by rw [hUc]; exact List.mem_cons_self u t))
    · intro c hc
      have hc' : (U ++ '/' :: P).getLast? = some dl := by
        have : ('/' :: P).getLast? = some dl := by
          rw [show ('/' :: P) = ['/'] ++ P by rfl]
          exact getLast?_append_right hdl
        exact (getLast?_append_right this : (U ++ '/' :: P).getLast? = some dl)
      rw [hc'] at hc
      have : dl = c := by simpa using hc
      subst this
      exact not_ws_of_digit hdldig
  cases hUc : U with
  | cons u t =>
    -- the output rematches `LP_SLASH` and is reproduced verbatim
    have hm : matchSlash (U ++ '/' :: P) = some (U, P) := by
      have hmc : matchSlash (U ++ '/' :: (ls.map toUpper ++
          (ws.filter (fun c => c ≠ ' ') ++ ds))) =
          some (U, ls.map toUpper ++ ws.filter (fun c => c ≠ ' ') ++ ds) :=
        matchSlash_construct hUal (by rw [hUc]; simp)
          ⟨hls', hl1', hl4', hws', hds', hd1', hd7'⟩
      rw [hP]
      conv_rhs => rw [← List.append_assoc]
      exact hmc
    rw [hy]
    simp only [normalizeChars]
    rw [hstrip, hm]
    have hmk : mkOut U P = U ++ '/' :: P := by
      rw [mkOut]
      have h1 : U.map toUpper = U := map_id_of_mem hUfix
      have h2 : lstripL U = U := by
        apply lstripL_eq_self
        intro hcon
        exact lstripL_head hcon rfl
      rw [h1, h2, hPmapfix, hPnospace]
    show [mkOut U P] = [U ++ '/' :: P]
    rw [hmk]
  | nil =>
    -- empty lot: `LP_SLASH` fails, the fallback reproduces the string
    rw [hy, hUc, List.nil_append]
    rw [hUc, List.nil_append] at hstrip
    have hsl : matchSlash ('/' :: P) = none := by
      simp only [matchSlash]
      rw [dropWhile_eq_self_head (by
        intro c hc
        have : '/' = c := by simpa using hc
        subst this; decide)]
      rw [takeWhile_eq_nil_head (by
        intro c hc
        have : '/' = c := by simpa using hc
        subst this; decide)]
      simp
    have hmem : '/' ∈ '/' :: P := List.mem_cons_self _ _
    cases hsp : matchSpace ('/' :: P) with
    | some x => exact absurd hmem (matchSpace_no_slash hsp)
    | none =>
    cases hti : matchTight ('/' :: P) with
    | some x => exact absurd hmem (matchTight_no_slash hti)
    | none =>
    simp only [normalizeChars]
    rw [hstrip, hsl, hsp, hti, if_pos hmem]
    have hta : ('/' :: P).takeWhile (fun c => c ≠ '/') = [] := by
      apply takeWhile_eq_nil_head
      intro c hc
      have : '/' = c := by simpa using hc
      subst this; simp
    have htd : ('/' :: P).dropWhile (fun c => c ≠ '/') = '/' :: P := by
      apply dropWhile_eq_self_head
      intro c hc
      have : '/' = c := by simpa using hc
      subst this; simp
    rw [hta, htd, List.tail_cons]
    have hstripP : stripWs P = P := by
      apply stripWs_eq_self
      · intro c hc
        rw [hah] at hc
        have : ah = c := by simpa using hc
        subst this
        exact not_ws_of_alpha haha
      · intro c hc
        rw [hdl] at hc
        have : dl = c := by simpa using hc
        subst this
        exact not_ws_of_digit hdldig
    rw [hstripP, hPmapfix, hPnospace]
    rfl

theorem mem_stripWs {l : List Char} {c : Char} (h : c ∈ stripWs l) : c ∈ l := by
  unfold stripWs at h
  obtain ⟨t, ht⟩ := List.rdropWhile_prefix isWs (l.dropWhile isWs)
  have h1 : c ∈ l.dropWhile isWs := by
    rw [← ht]; exact List.mem_append.mpr (Or.inl h)
  exact (List.dropWhile_sublist isWs).subset h1

/-- A string of the fallback's output form (uppercased, end-stripped lot,
despaced plan, first slash separating them) renormalises to itself as
long as the lot does not begin with `L`. -/
theorem normalizeChars_fallback {A B : List Char}
    (hAfix : ∀ c ∈ A, toUpper c = c)
    (hAhd : ∀ c, A.head? = some c → isWs c = false)
    (hAlast : ∀ c, A.getLast? = some c → isWs c = false)
    (hAslash : '/' ∉ A)
    (hBfix : ∀ c ∈ B, toUpper c = c)
    (hBhd : ∀ c, B.head? = some c → isWs c = false)
    (hBlast : ∀ c, B.getLast? = some c → isWs c = false)
    (hBns : ' ' ∉ B)
    (hL : A.head? ≠ some 'L') :
    normalizeChars (A ++ '/' :: B) = [A ++ '/' :: B] := by
  have hmemy : '/' ∈ A ++ '/' :: B :=
    List.mem_append.mpr (Or.inr (List.mem_cons_self _ _))
  have hstrip : stripWs (A ++ '/' :: B) = A ++ '/' :: B := by
    apply stripWs_eq_self
    · intro c hc
      cases hAc : A with
      | nil =>
        rw [hAc] at hc
        have : '/' = c := by simpa using hc
        subst this; decide
      | cons a t =>
        rw [hAc] at hc
        have : a = c := by simpa using hc
        subst this
        exact hAhd a (by rw [hAc]; rfl)
    · intro c hc
      cases hBc : B with
      | nil =>
        rw [hBc] at hc
        have h1 : (A ++ ['/']).getLast? = some '/' :=
          getLast?_append_right rfl
        rw [h1] at hc
        have : '/' = c := by simpa using hc
        subst this; decide
      | cons b t =>
        have hBne : B ≠ [] := by rw [hBc]; simp
        have h1 : (A ++ '/' :: B).getLast? = some (B.getLast hBne) := by
          apply getLast?_append_right
          rw [show ('/' :: B) = ['/'] ++ B from rfl]
          exact getLast?_append_right (List.getLast?_eq_getLast B hBne)
        rw [h1] at hc
        have : B.getLast hBne = c := by simpa using hc
        subst this
        exact hBlast _ (List.getLast?_eq_getLast B hBne)
  have hBfilter : removeSpaces B = B :=
    List.filter_eq_self.mpr (fun c hc => by
      simp only [decide_eq_true_eq]
      intro he; exact hBns (he ▸ hc))
  cases hm : matchSlash (A ++ '/' :: B) with
  | some g =>
    obtain ⟨g1, g2⟩ := g
    obtain ⟨w0, w1, r2, hsdec, hw0, hg1al, hg1ne, hw1, w2, ls, ws, ds, tws,
      hr2, hw2, hg2, hsh, htws⟩ := matchSlash_some_decomp hm
    -- locate the first slash: `A = w0 ++ g1 ++ w1` and `B = r2`
    have hx2 : '/' ∉ w0 ++ (g1 ++ w1) := by
      intro hc
      rcases List.mem_append.mp hc with hc | hc
      · exact ne_slash_of_ws (hw0 _ hc) rfl
      rcases List.mem_append.mp hc with hc | hc
      · exact ne_slash_of_alnum (hg1al _ hc) rfl
      · exact ne_slash_of_ws (hw1 _ hc) rfl
    have hsdec' : A ++ '/' :: B = (w0 ++ (g1 ++ w1)) ++ '/' :: r2 := by
      rw [hsdec]; simp [List.append_assoc]
    obtain ⟨hAeq, hBeq⟩ := split_at_first_slash hsdec' hAslash hx2
    -- the whitespace paddings around group 1 are empty
    have hw0nil : w0 = [] := by
      cases hw0c : w0 with
      | nil => rfl
      | cons a t =>
        exfalso
        have : A.head? = some a := by rw [hAeq, hw0c]; rfl
        have := hAhd a this
        rw [hw0 a (by rw [hw0c]; exact List.mem_cons_self a t)] at this
        cases this
    have hw1nil : w1 = [] := by
      cases hw1c : w1 with
      | nil => rfl
      | cons a t =>
        exfalso
        have hw1ne : w1 ≠ [] := by rw [hw1c]; simp
        have : A.getLast? = some (w1.getLast hw1ne) := by
          rw [hAeq]
          exact getLast?_append_right (getLast?_append_right
            (List.getLast?_eq_getLast w1 hw1ne))
        have hws := hAlast _ this
        rw [hw1 _ (List.getLast_mem hw1ne)] at hws
        cases hws
    have hAg1 : A = g1 := by rw [hAeq, hw0nil, hw1nil]; simp
    -- the whitespace paddings around the plan group are empty
    have hlsne : ls ≠ [] := by
      obtain ⟨-, hl1, -⟩ := hsh
      intro hc; rw [hc] at hl1; simp at hl1
    have hw2nil : w2 = [] := by
      cases hw2c : w2 with
      | nil => rfl
      | cons a t =>
        exfalso
        have : B.head? = some a := by rw [hBeq, hr2, hw2c]; rfl
        have := hBhd a this
        rw [hw2 a (by rw [hw2c]; exact List.mem_cons_self a t)] at this
        cases this
    have htwsnil : tws = [] := by
      cases htwsc : tws with
      | nil => rfl
      | cons a t =>
        exfalso
        have htwsne : tws ≠ [] := by rw [htwsc]; simp
        have : B.getLast? = some (tws.getLast htwsne) := by
          rw [hBeq, hr2]
          exact getLast?_append_right (getLast?_append_right
            (getLast?_append_right (getLast?_append_right
              (List.getLast?_eq_getLast tws htwsne))))
        have hws2 := hBlast _ this
        rw [htws _ (List.getLast_mem htwsne)] at hws2
        cases hws2
    have hBg2 : B = g2 := by
      rw [hBeq, hr2, hw2nil, htwsnil, hg2]
      simp [List.append_assoc]
    -- renormalisation reproduces the input
    simp only [normalizeChars]
    rw [hstrip, hm]
    show [mkOut g1 g2] = [A ++ '/' :: B]
    rw [mkOut, ← hAg1, ← hBg2]
    rw [map_id_of_mem hAfix, lstripL_eq_self hL, map_id_of_mem hBfix, hBfilter]
  | none =>
    cases hsp : matchSpace (A ++ '/' :: B) with
    | some x => exact absurd hmemy (matchSpace_no_slash hsp)
    | none =>
    cases hti : matchTight (A ++ '/' :: B) with
    | some x => exact absurd hmemy (matchTight_no_slash hti)
    | none =>
    simp only [normalizeChars]
    rw [hstrip, hm, hsp, hti, if_pos hmemy]
    obtain ⟨hta, htd⟩ := takeWhile_append_exact
      (p := fun c => decide (c ≠ '/')) (r := '/' :: B)
      (fun c hc => by
        simp only [decide_eq_true_eq]
        intro he; exact hAslash (he ▸ hc))
      (fun c hc => by
        have : '/' = c := by simpa using hc
        subst this; simp)
    rw [hta, htd, List.tail_cons]
    rw [stripWs_eq_self hAhd hAlast, stripWs_eq_self hBhd hBlast]
    rw [map_id_of_mem hAfix, map_id_of_mem hBfix, hBfilter]

/-- Amended idempotence of `normalize_lotplan` on character lists:
whenever normalisation produced `y` and the lot part of `y` (the text
before the first slash) does not begin with `'L'`, renormalising `y`
yields `[y]` again. -/
theorem lotPart_append {A B : List Char} (h : '/' ∉ A) :
    lotPart (A ++ '/' :: B) = A := by
  rw [lotPart]
  exact (takeWhile_append_exact (r := '/' :: B)
    (fun c hc => by
      simp only [decide_eq_true_eq]
      intro he; exact h (he ▸ hc))
    (fun c hc => by
      have : '/' = c := by simpa using hc
      subst this; simp)).1

/-! Evaluation lemmas for `normalizeChars`, one per branch. -/

theorem normalizeChars_eq_slash {t g1 g2 : List Char}
    (h1 : matchSlash (stripWs t) = some (g1, g2)) :
    normalizeChars t = [mkOut g1 g2] := by
  simp only [normalizeChars, h1]

theorem normalizeChars_eq_space {t g1 g2 : List Char}
    (h1 : matchSlash (stripWs t) = none)
    (h2 : matchSpace (stripWs t) = some (g1, g2)) :
    normalizeChars t = [mkOut g1 g2] := by
  simp only [normalizeChars, h1, h2]

theorem normalizeChars_eq_tight {t g1 g2 : List Char}
    (h1 : matchSlash (stripWs t) = none)
    (h2 : matchSpace (stripWs t) = none)
    (h3 : matchTight (stripWs t) = some (g1, g2)) :
    normalizeChars t = [mkOut g1 g2] := by
  simp only [normalizeChars, h1, h2, h3]

theorem normalizeChars_eq_fallback {t : List Char}
    (h1 : matchSlash (stripWs t) = none)
    (h2 : matchSpace (stripWs t) = none)
    (h3 : matchTight (stripWs t) = none)
    (hm : '/' ∈ stripWs t) :
    normalizeChars t =
      [(stripWs ((stripWs t).takeWhile (fun c => c ≠ '/'))).map toUpper ++
        '/' :: removeSpaces ((stripWs (((stripWs t).dropWhile
          (fun c => c ≠ '/')).tail)).map toUpper)] := by
  simp only [normalizeChars, h1, h2, h3, if_pos hm]

theorem normalizeChars_eq_nil {t : List Char}
    (h1 : matchSlash (stripWs t) = none)
    (h2 : matchSpace (stripWs t) = none)
    (h3 : matchTight (stripWs t) = none)
    (hm : '/' ∉ stripWs t) :
    normalizeChars t = [] := by
  simp only [normalizeChars, h1, h2, h3, if_neg hm]

theorem normalizeChars_idem {x y : List Char}
    (h : normalizeChars x = [y]) (hL : (lotPart y).head? ≠ some 'L') :
    normalizeChars y = [y] := by
  have hL' : ∀ A B : List Char, '/' ∉ A → A ++ '/' :: B = y →
      A.head? ≠ some 'L' := by
    intro A B hAs heq hcon
    apply hL
    rw [← heq, lotPart_append hAs, hcon]
  cases hsl : matchSlash (stripWs x) with
  | some g =>
    obtain ⟨g1, g2⟩ := g
    rw [normalizeChars_eq_slash hsl] at h
    injection h with hy
    rw [← hy]
    exact normalizeChars_mkOut (matchSlash_groups hsl)
  | none =>
    cases hsp : matchSpace (stripWs x) with
    | some g =>
      obtain ⟨g1, g2⟩ := g
      rw [normalizeChars_eq_space hsl hsp] at h
      injection h with hy
      rw [← hy]
      exact normalizeChars_mkOut (matchSpace_groups hsp)
    | none =>
      cases hti : matchTight (stripWs x) with
      | some g =>
        obtain ⟨g1, g2⟩ := g
        rw [normalizeChars_eq_tight hsl hsp hti] at h
        injection h with hy
        rw [← hy]
        exact normalizeChars_mkOut (matchTight_groups hti)
      | none =>
        by_cases hmem : '/' ∈ stripWs x
        case neg =>
          rw [normalizeChars_eq_nil hsl hsp hti hmem] at h
          cases h
        case pos =>
        rw [normalizeChars_eq_fallback hsl hsp hti hmem] at h
        injection h with hy
        have hAslash : '/' ∉
            (stripWs ((stripWs x).takeWhile (fun c => c ≠ '/'))).map
              toUpper := by
          intro hc
          obtain ⟨d, hd, hdc⟩ := List.mem_map.mp hc
          have hds : d = '/' := (toUpper_eq_slash_iff d).mp hdc
          subst hds
          have := List.mem_takeWhile_imp (mem_stripWs hd)
          simp at this
        rw [← hy]
        apply normalizeChars_fallback
        · exact fun c hc => upperFixed_map hc
        · intro c hc
          rw [List.head?_map] at hc
          obtain ⟨d, hd, hdc⟩ := Option.map_eq_some'.mp hc
          rw [← hdc, isWs_toUpper]
          exact stripWs_head hd
        · intro c hc
          rw [List.getLast?_map] at hc
          obtain ⟨d, hd, hdc⟩ := Option.map_eq_some'.mp hc
          rw [← hdc, isWs_toUpper]
          exact stripWs_getLast hd
        · exact hAslash
        · exact fun c hc => upperFixed_map (List.mem_of_mem_filter hc)
        · intro c hc
          cases hl0 : ((stripWs (((stripWs x).dropWhile
              (fun c => c ≠ '/')).tail)).map toUpper).head? with
          | none =>
            rw [List.head?_eq_none_iff] at hl0
            rw [removeSpaces, hl0] at hc
            cases hc
          | some c0 =>
            have hc0w : isWs c0 = false := by
              rw [List.head?_map] at hl0
              obtain ⟨d, hd, hdc⟩ := Option.map_eq_some'.mp hl0
              rw [← hdc, isWs_toUpper]
              exact stripWs_head hd
            have hc0ne : c0 ≠ ' ' := by
              intro he
              rw [he] at hc0w
              exact absurd hc0w (by decide)
            have hfh := head?_filter_of_head (p := fun c => decide (c ≠ ' '))
              hl0 (by simpa using hc0ne)
            rw [removeSpaces, hfh] at hc
            have : c0 = c := by simpa using hc
            subst this
            exact hc0w
        · intro c hc
          cases hl0 : ((stripWs (((stripWs x).dropWhile
              (fun c => c ≠ '/')).tail)).map toUpper).getLast? with
          | none =>
            rw [List.getLast?_eq_none_iff] at hl0
            rw [removeSpaces, hl0] at hc
            cases hc
          | some c0 =>
            have hc0w : isWs c0 = false := by
              rw [List.getLast?_map] at hl0
              obtain ⟨d, hd, hdc⟩ := Option.map_eq_some'.mp hl0
              rw [← hdc, isWs_toUpper]
              exact stripWs_getLast hd
            have hc0ne : c0 ≠ ' ' := by
              intro he
              rw [he] at hc0w
              exact absurd hc0w (by decide)
            have hfh := getLast?_filter_of_getLast
              (p := fun c => decide (c ≠ ' ')) hl0 (by simpa using hc0ne)
            rw [removeSpaces, hfh] at hc
            have : c0 = c := by simpa using hc
            subst this
            exact hc0w
        · intro hc
          have := List.of_mem_filter hc
          simp at this
        · exact hL' _ _ hAslash hy

/-- C4 counterexample: normalisation is not idempotent.  On the parseable
input `"L1/A B1"` the fallback branch yields `"L1/AB1"`, but normalising
`"L1/AB1"` (a string in canonical LOT/PLAN form) strips the leading `L`
of the lot via `lstrip("L")` and returns `"1/AB1"` instead. -/
theorem normalize_lotplan_not_idem :
    normalize_lotplan "L1/A B1" = ["L1/AB1"] ∧
    normalize_lotplan "L1/AB1" = ["1/AB1"] ∧
    normalize_lotplan "L1/AB1" ≠ normalize_lotplan "L1/A B1" :=
  ⟨by decide, by decide, by decide⟩

/-- C4 (amended): for every input `x` on which `normalize_lotplan` returns
a non-empty result `[y]`, if the lot part of `y` (the text before the
first slash) does not begin with `'L'`, then `normalize_lotplan y = [y]`;
idempotence holds exactly up to the lot-side `lstrip("L")`. -/
theorem normalize_lotplan_idem {x y : String}
    (h : normalize_lotplan x = [y])
    (hL : (lotPart y.data).head? ≠ some 'L') :
    normalize_lotplan y = [y] := by
  unfold normalize_lotplan at h ⊢
  cases hn : normalizeChars x.data with
  | nil => rw [hn] at h; cases h
  | cons a t =>
    cases t with
    | cons b t2 => rw [hn] at h; simp at h
    | nil =>
      rw [hn] at h
      simp only [List.map_cons, List.map_nil, List.cons.injEq, and_true] at h
      have ha : a = y.data := by rw [← h]
      have hmain := normalizeChars_idem (x := x.data) (y := y.data)
        (by rw [hn, ha]) hL
      rw [hmain]
      cases y with
      | mk d => rfl

/-- Witness for the amended C4 theorem at the concrete input
`"3 RP67254"`. -/
theorem normalize_lotplan_idem_witness :
    normalize_lotplan "3 RP67254" = ["3/RP67254"] ∧
    normalize_lotplan "3/RP67254" = ["3/RP67254"] :=
  ⟨by decide, normalize_lotplan_idem (x := "3 RP67254") (by decide) (by decide)⟩

/-! ## Geometry codec (backend/app/utils/geo.py and main.py)

Python floats are modelled as rationals; `float(x)` on a number is the
identity. -/

/-- A coordinate pair. -/
abbrev Point := ℚ × ℚ

/-- A ring: an ordered list of coordinate pairs. -/
abbrev GeoRing := List Point

/-- The GeoJSON geometries handled by the codec; any other `type` value
behaves like the catch-all branches of the source (no rings yielded). -/
inductive GeoJSON where
  | polygon (coords : List GeoRing)
  | multiPolygon (coords : List (List GeoRing))
  | otherType
deriving DecidableEq

/-- An Esri polygon payload: `{"rings": ..., "spatialReference": {"wkid": w}}`. -/
structure EsriPoly where
  rings : List GeoRing
  wkid : Nat
deriving DecidableEq

/-- `geojson_to_esri_polygon` (utils/geo.py lines 35–57).  The
`simplify_tol` parameter is accepted and ignored, exactly as in the
source ("No simplification here"). -/
def geojson_to_esri_polygon (g : GeoJSON) (simplify_tol : ℚ) : EsriPoly :=
  match g with
  | .polygon coords => ⟨coords.filter (fun r => 4 ≤ r.length), 4326⟩
  | .multiPolygon coords =>
    ⟨coords.flatten.filter (fun r => 4 ≤ r.length), 4326⟩
  | .otherType => ⟨[], 4326⟩

/-- `esri_polygon_to_geojson` (main.py lines 107–121): keep every ring of
length ≥ 4 as one GeoJSON polygon's rings; `None`/empty input or no
surviving ring gives `None`. -/
def esri_polygon_to_geojson (geom : Option EsriPoly) : Option GeoJSON :=
  let rings := match geom with
    | none => []
    | some g => g.rings
  if rings = [] then none
  else
    let coords := rings.filter (fun r => 4 ≤ r.length)
    if coords = [] then none
    else some (.polygon coords)

/-- All coordinates of a GeoJSON geometry in iteration order
(`_iter_coords`, utils/geo.py lines 6–18). -/
def iterCoords : GeoJSON → List Point
  | .polygon coords => coords.flatten
  | .multiPolygon coords => (coords.map (fun p => p.flatten)).flatten
  | .otherType => []

/-- An Esri envelope payload. -/
structure EsriEnv where
  xmin : ℚ
  ymin : ℚ
  xmax : ℚ
  ymax : ℚ
  wkid : Nat
deriving DecidableEq

/-- `geojson_to_esri_envelope` (utils/geo.py lines 59–64) on top of
`_bbox_from_geojson` (lines 20–33): the axis-aligned bounding box of all
coordinates, `(0,0,0,0)` when there are none. -/
def geojson_to_esri_envelope (g : GeoJSON) : EsriEnv :=
  match iterCoords g with
  | [] => ⟨0, 0, 0, 0, 4326⟩
  | c :: rest =>
    ⟨(rest.map (fun p => p.1)).foldl min c.1,
     (rest.map (fun p => p.2)).foldl min c.2,
     (rest.map (fun p => p.1)).foldl max c.1,
     (rest.map (fun p => p.2)).foldl max c.2, 4326⟩

/-! ## FeatureServiceClient (arcgis_client.py) -/

/-- One response page of the feature service. -/
structure Page (α : Type) where
  features : List α
  exceededTransferLimit : Bool

/-- The pagination loop of `fetch_all_features` (arcgis_client.py lines
31–43).  The service is modelled by the list of pages it returns to the
successive requests; the result also records the `resultOffset` carried
by every request that was issued. -/
def fetch_all_loop {α : Type} : List (Page α) → Nat → List α × List Nat
  | [], _ => ([], [])
  | p :: rest, off =>
    if p.exceededTransferLimit = false then (p.features, [off])
    else if p.features.length = 0 then (p.features, [off])
    else
      let r := fetch_all_loop rest (off + p.features.length)
      (p.features ++ r.1, off :: r.2)

/-- `fetch_all_features`: run the loop from offset 0. -/
def fetch_all_features {α : Type} (pages : List (Page α)) :
    List α × List Nat :=
  fetch_all_loop pages 0

/-- A well-formed response trace: every page except the last requests a
continuation (flag set, non-empty), and the last page terminates the
loop (flag unset, or no features).  These are exactly the pages the loop
consumes. -/
inductive PageTrace {α : Type} : List (Page α) → Prop
  | last (p : Page α)
      (h : p.exceededTransferLimit = false ∨ p.features = []) : PageTrace [p]
  | more (p : Page α) {rest : List (Page α)}
      (h1 : p.exceededTransferLimit = true) (h2 : p.features ≠ [])
      (ht : PageTrace rest) : PageTrace (p :: rest)

/-- Partial sums: the offset carried by each request. -/
def runningOffsets : List Nat → Nat → List Nat
  | [], _ => []
  | n :: rest, acc => acc :: runningOffsets rest (acc + n)

/-! ## arcgis_query error handling (arcgis_client.py lines 20–29) -/

/-- A parsed JSON value. -/
inductive Json where
  | null
  | bool (b : Bool)
  | num (q : ℚ)
  | str (s : String)
  | arr (elems : List Json)
  | obj (fields : List (String × Json))

/-- `isinstance(data, dict) and "error" in data`: an `error` key at the
top level of an object body. -/
def hasTopKey (k : String) : Json → Bool
  | .obj fs => fs.any (fun p => p.1 = k)
  | _ => false

mutual
/-- A key present anywhere in a JSON value — the spec's phrase "an
`error` key anywhere in the response body". -/
def hasKeyAnywhere (k : String) : Json → Bool
  | .arr es => hasKeyAnywhereList k es
  | .obj fs => hasKeyAnywhereFields k fs
  | _ => false

def hasKeyAnywhereList (k : String) : List Json → Bool
  | [] => false
  | e :: rest => hasKeyAnywhere k e || hasKeyAnywhereList k rest

def hasKeyAnywhereFields (k : String) : List (String × Json) → Bool
  | [] => false
  | f :: rest => f.1 = k || hasKeyAnywhere k f.2 || hasKeyAnywhereFields k rest
end

/-- The HTTP response to the single POST issued by `arcgis_query`, with
the body already parsed. -/
structure HttpResponse where
  is_success : Bool
  body : Json

inductive FetchErr where
  | httpStatus
  | arcgisError
deriving DecidableEq

/-- `arcgis_query` (arcgis_client.py lines 20–29): `raise_for_status`
first, then the top-level `error`-key check; exactly one request is
made, so the function consumes exactly one response. -/
def arcgis_query (r : HttpResponse) : Except FetchErr Json :=
  if r.is_success = false then .error .httpStatus
  else if hasTopKey "error" r.body then .error .arcgisError
  else .ok r.body

/-! ## Ring decoding with the shapely oracle (parcel_resolver.py 72–119)

The shapely library calls (`Polygon(...)`, `.is_valid`, `.buffer(0)`,
`.is_empty`) are abstracted as an oracle over an abstract polygon type
`P`; fallible calls return `Except`. -/

structure ShapelyModel (P : Type) where
  mkPoly : GeoRing → List GeoRing → Except Unit P
  is_valid : P → Bool
  buffer0 : P → Except Unit P
  is_empty : P → Bool

/-- `_flush` (parcel_resolver.py lines 91–100): build the polygon, repair
an invalid one with a zero-distance buffer, keep it only when valid and
non-empty; any exception is swallowed. -/
def flushPoly {P : Type} (M : ShapelyModel P) (outer : GeoRing)
    (holes : List GeoRing) : List P :=
  match M.mkPoly outer holes with
  | .error _ => []
  | .ok p =>
    match (if M.is_valid p then Except.ok p else M.buffer0 p) with
    | .error _ => []
    | .ok p2 => if M.is_valid p2 && !M.is_empty p2 then [p2] else []

/-- The ring loop of `_esri_polygon_to_polygons` (lines 102–117): rings
shorter than 4 points are skipped; the first kept ring becomes
`curr_outer` (resetting `curr_holes`), every later kept ring is appended
to `curr_holes`. -/
def ringLoop : List GeoRing → Option GeoRing → List GeoRing →
    Option GeoRing × List GeoRing
  | [], o, hs => (o, hs)
  | r :: rest, o, hs =>
    if r.length < 4 then ringLoop rest o hs
    else
      match o with
      | none => ringLoop rest (some r) []
      | some _ => ringLoop rest o (hs ++ [r])

/-- `_esri_polygon_to_polygons` (parcel_resolver.py lines 72–119). -/
def esri_polygon_to_polygons {P : Type} (M : ShapelyModel P)
    (geom : Option EsriPoly) : List P :=
  let rings := match geom with
    | none => []
    | some g => g.rings
  if rings = [] then []
  else
    match ringLoop rings none [] with
    | (none, _) => []
    | (some o, hs) => flushPoly M o hs

/-! ## resolve_parcels (parcel_resolver.py 124–225) -/

/-- One feature of a service response: Esri geometry plus attributes
(values already stringified, as the resolver applies `str(...)`). -/
structure Feature where
  geometry : Option EsriPoly
  attributes : List (String × String)
deriving DecidableEq

/-- `f"UPPER({lotplan_field}) = '{lot_u}/{plan_u}'"` (line 153). -/
def whereA (lotplanField lot plan : String) : String :=
  "UPPER(" ++ lotplanField ++ ") = '" ++ lot ++ "/" ++ plan ++ "'"

/-- First tier-B WHERE clause (line 170). -/
def whereB1 (lotField planField lot plan : String) : String :=
  "UPPER(" ++ lotField ++ ") = '" ++ lot ++ "' AND REPLACE(UPPER(" ++
    planField ++ "), ' ', '') = '" ++ plan ++ "'"

/-- Second tier-B WHERE clause (line 171). -/
def whereB2 (lotField planField lot plan : String) : String :=
  "UPPER(" ++ lotField ++ ") = '" ++ lot ++ "' AND UPPER(" ++ planField ++
    ") = '" ++ plan ++ "'"

/-- The `for w in where_candidates` loop (lines 173–188): a raising
fetch leaves `feats` unchanged and continues; a successful fetch stores
its result and breaks when it is non-empty. -/
def whereLoop (fetch : String → Except Unit (List Feature)) :
    List String → List Feature → List Feature
  | [], feats => feats
  | w :: rest, feats =>
    match fetch w with
    | .error _ => whereLoop fetch rest feats
    | .ok fs => if fs = [] then whereLoop fetch rest fs else fs

/-- The tier strategy for one identifier (lines 149–188): tier A on the
combined lotplan field when configured (its fetch error swallowed to
`[]`), then — only when no feature was obtained — the tier-B loop. -/
def queryTiers (hasLotplanField : Bool)
    (fetch : String → Except Unit (List Feature))
    (lotplanField lotField planField lot plan : String) : List Feature :=
  let featsA : List Feature :=
    if hasLotplanField then
      match fetch (whereA lotplanField lot plan) with
      | .ok fs => fs
      | .error _ => []
    else []
  if featsA = [] then
    whereLoop fetch [whereB1 lotField planField lot plan,
      whereB2 lotField planField lot plan] featsA
  else featsA

/-- The union result, classified the way `resolve_parcels` inspects
`geom_type`: a polygon, a multi-polygon, or anything else. -/
inductive UGeom (P : Type) where
  | poly (p : P)
  | multi (ps : List P)
  | collection

/-- One provenance record of `matched`. -/
structure Matched where
  lot : String
  plan : String
  lotplan : String
deriving DecidableEq

/-- The resolver's return value `{'parcel': ..., 'matched': ...}`;
`mapping(...)` is modelled as the identity on the classified geometry. -/
structure Resolved (P : Type) where
  parcel : Option (UGeom P)
  matched : List Matched

/-- The `except` handler of the union (lines 219–225): retry the
`MultiPolygon` assembly, else return only the first collected polygon. -/
def unionFallback {P : Type} (mkMulti : List P → Except Unit Unit)
    (g0 : P) (geoms : List P) (matched : List Matched) : Resolved P :=
  match mkMulti geoms with
  | .ok _ => ⟨some (.multi geoms), matched⟩
  | .error _ => ⟨some (.poly g0), matched⟩

/-- Lines 204–225 of `resolve_parcels`: the union cascade.  `union`
models `shapely.ops.unary_union`, `mkMulti` the `MultiPolygon`
constructor applied to the collected polygons (`isinstance` filtering is
the identity here since every collected geometry is a polygon). -/
def finishResolve {P : Type} (union : List P → Except Unit (UGeom P))
    (mkMulti : List P → Except Unit Unit)
    (geoms : List P) (matched : List Matched) : Resolved P :=
  match geoms with
  | [] => ⟨none, []⟩
  | g0 :: rest =>
    match union (g0 :: rest) with
    | .ok (.poly p) => ⟨some (.poly p), matched⟩
    | .ok (.multi ps) => ⟨some (.multi ps), matched⟩
    | .ok .collection =>
      match mkMulti (g0 :: rest) with
      | .ok _ => ⟨some (.multi (g0 :: rest)), matched⟩
      | .error _ => unionFallback mkMulti g0 (g0 :: rest) matched
    | .error _ => unionFallback mkMulti g0 (g0 :: rest) matched

/-- `attrs.get(k, default)`. -/
def lookupD (attrs : List (String × String)) (k d : String) : String :=
  match attrs.find? (fun p => p.1 = k) with
  | some p => p.2
  | none => d

/-- The configuration and collaborators of `resolve_parcels`:
`settings` fields plus the fetch, shapely, and union oracles. -/
structure ResolveEnv (P : Type) where
  hasUrl : Bool
  lotField : String
  planField : String
  lotplanField : Option String
  fetch : String → Except Unit (List Feature)
  shapely : ShapelyModel P
  union : List P → Except Unit (UGeom P)
  mkMulti : List P → Except Unit Unit

/-- Lines 190–202: decode each feature's geometry and collect the valid
non-empty polygons together with one provenance record each. -/
def collectFeatures {P : Type} (env : ResolveEnv P)
    (lot_u plan_u : String) (feats : List Feature) :
    List P × List Matched :=
  let entries := (feats.map (fun f =>
    ((esri_polygon_to_polygons env.shapely f.geometry).filter
        (fun p => !env.shapely.is_empty p && env.shapely.is_valid p &&
          !env.shapely.is_empty p)).map (fun p =>
      (p, (⟨lookupD f.attributes env.lotField lot_u,
            lookupD f.attributes env.planField plan_u,
            lot_u ++ "/" ++ plan_u⟩ : Matched))))).flatten
  (entries.map (fun e => e.1), entries.map (fun e => e.2))

/-- The per-identifier body of the `for lp in lotplans` loop (lines
141–202): slash-free entries are skipped outright. -/
def processLotplan {P : Type} (env : ResolveEnv P) (lp : String) :
    List P × List Matched :=
  if '/' ∈ lp.data then
    let lotChars := lp.data.takeWhile (fun c => c ≠ '/')
    let planChars := (lp.data.dropWhile (fun c => c ≠ '/')).tail
    let lot_u := String.mk (stripWs (lotChars.map toUpper))
    let plan_u := String.mk (removeSpaces (planChars.map toUpper))
    let feats := queryTiers env.lotplanField.isSome env.fetch
      (env.lotplanField.getD "") env.lotField env.planField lot_u plan_u
    collectFeatures env lot_u plan_u feats
  else ([], [])

/-- `resolve_parcels` (parcel_resolver.py lines 124–225). -/
def resolve_parcels {P : Type} (env : ResolveEnv P)
    (lotplans : List String) : Except Unit (Resolved P) :=
  if env.hasUrl = false then .error ()
  else
    let pairs := lotplans.map (processLotplan env)
    let geoms := (pairs.map (fun q => q.1)).flatten
    let matched := (pairs.map (fun q => q.2)).flatten
    .ok (finishResolve env.union env.mkMulti geoms matched)

/-! ## intersect (main.py 126–267) -/

/-- One configured layer (`layers.yaml` entry). -/
structure LayerCfg where
  id : String
  url : String
  label : Option String
  includeFields : List String
  style : List (String × String)
  name_template : Option String

/-- The spatial filter sent with a query: the parcel polygon or its
envelope. -/
inductive QueryGeom where
  | polyG (p : EsriPoly)
  | envG (e : EsriEnv)
deriving DecidableEq

/-- `",".join(include_fields) if include_fields else "*"` (line 186). -/
def layerOutFields (layer : LayerCfg) : String :=
  if layer.includeFields = [] then "*"
  else String.intercalate "," layer.includeFields

/-- One decoded output feature of a layer result. -/
structure OutFeature where
  geometry : GeoJSON
  attrs : List (String × String)
  name : String
deriving DecidableEq

/-- One per-layer result entry. -/
structure LayerResult where
  id : String
  label : String
  features : List OutFeature
  style : List (String × String)

/-- The `HTTPException`s that `intersect` raises, carrying the content
of their `detail` strings. -/
inductive IntersectErr where
  | unknownLayerIds (missing : List String)
  | missingParcel
  | upstream (lid : String) (attempts : List String)

/-- The three-attempt fallback chain for one layer (main.py lines
188–236).  `fetchI url geom outFields` abstracts
`fetch_all_features(url, {...})`; the second component records every
query that was issued, in order. -/
def intersectLayer
    (fetchI : String → QueryGeom → String → Except String (List Feature))
    (esriP : EsriPoly) (esriE : EsriEnv) (layer : LayerCfg) (lid : String) :
    Except IntersectErr (List Feature) × List (QueryGeom × String) :=
  let of1 := layerOutFields layer
  match fetchI layer.url (.polyG esriP) of1 with
  | .ok fs => (.ok fs, [(.polyG esriP, of1)])
  | .error e1 =>
    match fetchI layer.url (.polyG esriP) "*" with
    | .ok fs => (.ok fs, [(.polyG esriP, of1), (.polyG esriP, "*")])
    | .error e2 =>
      match fetchI layer.url (.envG esriE) "*" with
      | .ok fs => (.ok fs,
          [(.polyG esriP, of1), (.polyG esriP, "*"), (.envG esriE, "*")])
      | .error e3 =>
        (.error (.upstream lid ["poly/conf: " ++ e1, "poly/*: " ++ e2,
          "env/*: " ++ e3]),
          [(.polyG esriP, of1), (.polyG esriP, "*"), (.envG esriE, "*")])

/-- Lines 238–250: decode each feature without shapely, dropping those
whose geometry does not decode, and tag the display name. -/
def decodeLayerFeatures (layer : LayerCfg) (features : List Feature) :
    List OutFeature :=
  features.filterMap (fun f =>
    match esri_polygon_to_geojson f.geometry with
    | none => none
    | some gj => some ⟨gj, f.attributes,
        layer.name_template.getD (layer.label.getD "Feature")⟩)

/-- `layer_map = {l["id"]: l for l in layers_cfg}`: dict-comprehension
lookup (a later duplicate id wins). -/
def layerMapFind (cfgs : List LayerCfg) (lid : String) : Option LayerCfg :=
  cfgs.reverse.find? (fun l => l.id = lid)

/-- The `for lid in body.layer_ids` loop (lines 157–259): a layer whose
three attempts all fail raises, which aborts the whole loop and discards
every already-computed result. -/
def intersectLoop
    (fetchI : String → QueryGeom → String → Except String (List Feature))
    (cfgs : List LayerCfg) (esriP : EsriPoly) (esriE : EsriEnv) :
    List String →
      Except IntersectErr (List LayerResult) × List (QueryGeom × String)
  | [] => (.ok [], [])
  | lid :: rest =>
    match layerMapFind cfgs lid with
    | none => (.error (.unknownLayerIds [lid]), [])
    | some layer =>
      let step := intersectLayer fetchI esriP esriE layer lid
      match step.1 with
      | .error e => (.error e, step.2)
      | .ok fs =>
        let restRes := intersectLoop fetchI cfgs esriP esriE rest
        match restRes.1 with
        | .error e => (.error e, step.2 ++ restRes.2)
        | .ok results =>
          (.ok (⟨lid, layer.label.getD lid, decodeLayerFeatures layer fs,
            layer.style⟩ :: results), step.2 ++ restRes.2)

/-- `intersect` (main.py lines 126–267): id validation, parcel-presence
check, then the per-layer loop.  Returns the response or the raised
`HTTPException`, together with the trace of queries issued. -/
def intersect
    (fetchI : String → QueryGeom → String → Except String (List Feature))
    (cfgs : List LayerCfg) (parcel : Option GeoJSON)
    (layer_ids : List String) :
    Except IntersectErr (List LayerResult) × List (QueryGeom × String) :=
  let missing := layer_ids.filter (fun lid => (layerMapFind cfgs lid).isNone)
  if missing ≠ [] then (.error (.unknownLayerIds missing), [])
  else
    match parcel with
    | none => (.error .missingParcel, [])
    | some pg =>
      intersectLoop fetchI cfgs (geojson_to_esri_polygon pg (1 / 1000000))
        (geojson_to_esri_envelope pg) layer_ids

/-! ## Claim C7: geometry codec round trip -/

/-- C7: for every exchange polygon whose rings all have at least 4
points (so that no ring is dropped and the single-outer grouping cannot
misattribute anything), decoding the service-ring encoding returns the
polygon unchanged — the round trip is exact, hence within any
tolerance. -/
theorem geo_codec_roundtrip (coords : List GeoRing) (hne : coords ≠ [])
    (hv : ∀ r ∈ coords, 4 ≤ r.length) :
    esri_polygon_to_geojson
        (some (geojson_to_esri_polygon (.polygon coords) 0)) =
      some (.polygon coords) := by
  have hfilter : coords.filter (fun r => 4 ≤ r.length) = coords :=
    List.filter_eq_self.mpr (fun r hr => by simpa using hv r hr)
  simp only [geojson_to_esri_polygon, esri_polygon_to_geojson, hfilter]
  simp [hne]

/-- Witness for C7 at a concrete closed square ring. -/
theorem geo_codec_roundtrip_witness :
    esri_polygon_to_geojson (some (geojson_to_esri_polygon
        (.polygon [[(0, 0), (0, 1), (1, 1), (0, 0)]]) 0)) =
      some (.polygon [[(0, 0), (0, 1), (1, 1), (0, 0)]]) :=
  geo_codec_roundtrip [[(0, 0), (0, 1), (1, 1), (0, 0)]] (by decide)
    (by decide)

/-! ## Claim C2: pagination -/

theorem fetch_all_loop_spec {α : Type} {pages : List (Page α)}
    (ht : PageTrace pages) : ∀ off : Nat,
    (fetch_all_loop pages off =
      ((pages.map (fun p => p.features)).flatten,
        runningOffsets (pages.map (fun p => p.features.length)) off)) ∧
    ∀ extra : List (Page α),
      fetch_all_loop (pages ++ extra) off = fetch_all_loop pages off := by
  induction ht with
  | last p h =>
    intro off
    constructor
    · rcases h with h | h
      · simp [fetch_all_loop, h, runningOffsets]
      · simp only [fetch_all_loop, h]
        by_cases hf : p.exceededTransferLimit = false
        · simp [hf, runningOffsets, h]
        · simp [hf, runningOffsets, h]
    · intro extra
      rcases h with h | h
      · simp [fetch_all_loop, h]
      · simp only [List.cons_append, fetch_all_loop, h]
        by_cases hf : p.exceededTransferLimit = false
        · simp [hf]
        · simp [hf]
  | more p h1 h2 ht ih =>
    intro off
    have hlen : ¬p.features.length = 0 := by simpa using h2
    constructor
    · simp only [fetch_all_loop, h1]
      rw [if_neg (by simp), if_neg hlen, ((ih (off + p.features.length)).1)]
      simp [runningOffsets]
    · intro extra
      simp only [List.cons_append, fetch_all_loop, h1]
      rw [if_neg (by simp), if_neg hlen, if_neg (by simp), if_neg hlen]
      simp only [List.append_eq]
      rw [((ih (off + p.features.length)).2 extra)]

/-- C2: for a service whose successive responses form a terminating page
trace, `fetch_all_features` returns exactly the concatenation of the
pages' feature lists in request order; the first request carries offset
0 and each later request's offset is the sum of the feature counts of
the previously received pages; and no request beyond the trace is ever
issued (extra pages after the terminating one leave the run unchanged). -/
theorem fetch_all_features_paginates {α : Type} {pages : List (Page α)}
    (ht : PageTrace pages) :
    (fetch_all_features pages =
      ((pages.map (fun p => p.features)).flatten,
        runningOffsets (pages.map (fun p => p.features.length)) 0)) ∧
    ∀ extra : List (Page α),
      fetch_all_loop (pages ++ extra) 0 = fetch_all_loop pages 0 :=
  ⟨(fetch_all_loop_spec ht 0).1, fun extra => (fetch_all_loop_spec ht 0).2 extra⟩

/-- Witness for C2: three pages flagged `true, true, false` yield the
concatenation of their features, and the third request's offset is the
sum of the first two pages' feature counts (2 + 1 = 3). -/
theorem fetch_all_features_paginates_witness :
    PageTrace [(⟨[1, 2], true⟩ : Page Nat), ⟨[3], true⟩, ⟨[4, 5], false⟩] ∧
    fetch_all_features
        [(⟨[1, 2], true⟩ : Page Nat), ⟨[3], true⟩, ⟨[4, 5], false⟩] =
      ([1, 2, 3, 4, 5], [0, 2, 3]) := by
  have htr : PageTrace
      [(⟨[1, 2], true⟩ : Page Nat), ⟨[3], true⟩, ⟨[4, 5], false⟩] :=
    .more _ rfl (by decide) (.more _ rfl (by decide) (.last _ (Or.inl rfl)))
  refine ⟨htr, ?_⟩
  have hspec := (fetch_all_features_paginates htr).1
  simpa using hspec

/-! ## Claim C9: fetch failures of `arcgis_query` -/

/-- C9 counterexample: a successful HTTP response whose body carries an
`error` key nested one level down (so "anywhere in the response body")
is returned as a success — only a top-level key of a dict body raises. -/
theorem arcgis_query_nested_error_not_failure :
    arcgis_query ⟨true, .obj [("features", .arr []),
        ("x", .obj [("error", .str "boom")])]⟩ =
      .ok (.obj [("features", .arr []),
        ("x", .obj [("error", .str "boom")])]) ∧
    hasKeyAnywhere "error" (.obj [("features", .arr []),
        ("x", .obj [("error", .str "boom")])]) = true :=
  ⟨rfl, rfl⟩

/-- C9 (amended): `arcgis_query` raises a fetch failure if and only if
the HTTP response is non-success or the response body is a JSON object
with an `error` key at its top level (regardless of HTTP status in the
sense that a successful status still fails on a top-level error key);
the single request is never retried (the function consumes exactly one
response). -/
theorem arcgis_query_failure_iff (r : HttpResponse) :
    (∃ e, arcgis_query r = .error e) ↔
      (r.is_success = false ∨ hasTopKey "error" r.body = true) := by
  unfold arcgis_query
  by_cases h1 : r.is_success = false
  · rw [if_pos h1]
    exact ⟨fun _ => Or.inl h1, fun _ => ⟨.httpStatus, rfl⟩⟩
  · rw [if_neg h1]
    by_cases h2 : hasTopKey "error" r.body = true
    · rw [if_pos h2]
      exact ⟨fun _ => Or.inr h2, fun _ => ⟨.arcgisError, rfl⟩⟩
    · rw [if_neg h2]
      constructor
      · rintro ⟨e, he⟩
        cases he
      · rintro (hc | hc)
        · exact absurd hc h1
        · exact absurd hc h2

/-! ## Claim C8: ring decoding -/

theorem flushPoly_valid {P : Type} (M : ShapelyModel P) (o : GeoRing)
    (hs : List GeoRing) :
    ∀ p ∈ flushPoly M o hs, M.is_valid p = true ∧ M.is_empty p = false := by
  intro p hp
  unfold flushPoly at hp
  cases hmk : M.mkPoly o hs with
  | error e => simp only [hmk] at hp; cases hp
  | ok p1 =>
    simp only [hmk] at hp
    by_cases hv : M.is_valid p1 = true
    · simp only [if_pos hv] at hp
      by_cases hcond : (M.is_valid p1 && !M.is_empty p1) = true
      · simp only [if_pos hcond] at hp
        have hpe := List.mem_singleton.mp hp
        subst hpe
        simp only [Bool.and_eq_true, Bool.not_eq_true'] at hcond
        exact hcond
      · simp only [if_neg hcond] at hp; cases hp
    · simp only [if_neg hv] at hp
      cases hbuf : M.buffer0 p1 with
      | error e => simp only [hbuf] at hp; cases hp
      | ok p2 =>
        simp only [hbuf] at hp
        by_cases hcond : (M.is_valid p2 && !M.is_empty p2) = true
        · simp only [if_pos hcond] at hp
          have hpe := List.mem_singleton.mp hp
          subst hpe
          simp only [Bool.and_eq_true, Bool.not_eq_true'] at hcond
          exact hcond
        · simp only [if_neg hcond] at hp; cases hp

theorem ringLoop_some (rings : List GeoRing) (o : GeoRing) :
    ∀ hs, ringLoop rings (some o) hs =
      (some o, hs ++ rings.filter (fun r => 4 ≤ r.length)) := by
  induction rings with
  | nil => intro hs; simp [ringLoop]
  | cons r rest ih =>
    intro hs
    simp only [ringLoop]
    by_cases hlen : r.length < 4
    · rw [if_pos hlen, ih]
      have hd : (decide (4 ≤ r.length)) = false := by
        simp only [decide_eq_false_iff_not]; omega
      simp [List.filter_cons, hd]
    · rw [if_neg hlen, ih]
      have hd : (decide (4 ≤ r.length)) = true := by
        simp only [decide_eq_true_eq]; omega
      simp [List.filter_cons, hd]

theorem ringLoop_none (rings : List GeoRing) :
    ringLoop rings none [] =
      (match rings.filter (fun r => 4 ≤ r.length) with
       | [] => (none, [])
       | o :: hs => (some o, hs)) := by
  induction rings with
  | nil => simp [ringLoop]
  | cons r rest ih =>
    simp only [ringLoop]
    by_cases hlen : r.length < 4
    · rw [if_pos hlen, ih]
      have hd : (decide (4 ≤ r.length)) = false := by
        simp only [decide_eq_false_iff_not]; omega
      simp [List.filter_cons, hd]
    · rw [if_neg hlen]
      have hd : (decide (4 ≤ r.length)) = true := by
        simp only [decide_eq_true_eq]; omega
      rw [ringLoop_some]
      simp [List.filter_cons, hd]

/-- C8: the decoder is a total function (no exception escapes: every
shapely call is behind the oracle's `Except`, and both failure paths
yield `[]`); rings shorter than 4 points are dropped; of the kept rings
the first becomes the outer boundary and all the rest become holes of
that same polygon, which is then built by `flushPoly` — construct,
repair an invalid polygon with a zero-distance buffer, and keep the
result only when it is valid and non-empty.  Consequently every polygon
the decoder emits is valid and non-empty under the model, and a `None`
geometry decodes to the empty list. -/
theorem esri_polygon_to_polygons_spec {P : Type} (M : ShapelyModel P)
    (rings : List GeoRing) (w : Nat) :
    (esri_polygon_to_polygons M (some ⟨rings, w⟩) =
      match rings.filter (fun r => 4 ≤ r.length) with
      | [] => []
      | o :: hs => flushPoly M o hs) ∧
    (∀ p ∈ esri_polygon_to_polygons M (some ⟨rings, w⟩),
      M.is_valid p = true ∧ M.is_empty p = false) ∧
    esri_polygon_to_polygons M none = [] := by
  have hmain : esri_polygon_to_polygons M (some ⟨rings, w⟩) =
      match rings.filter (fun r => 4 ≤ r.length) with
      | [] => []
      | o :: hs => flushPoly M o hs := by
    simp only [esri_polygon_to_polygons]
    by_cases hr : rings = []
    · subst hr; simp
    · rw [if_neg hr, ringLoop_none]
      cases rings.filter (fun r => 4 ≤ r.length) with
      | nil => rfl
      | cons o hs => rfl
  refine ⟨hmain, ?_, rfl⟩
  intro p hp
  rw [hmain] at hp
  revert hp
  cases hf : rings.filter (fun r => 4 ≤ r.length) with
  | nil => intro hp; cases hp
  | cons o hs => exact flushPoly_valid M o hs p

/-- Witness for C8 on a concrete rings array: a 3-point ring is dropped,
the first 4-point ring becomes the outer boundary and the following one
a hole; with a shapely model whose polygons are `GeoRing × List GeoRing`
and always valid, the decoder returns that single polygon. -/
theorem esri_polygon_to_polygons_witness :
    esri_polygon_to_polygons
      (⟨fun o hs => .ok (o, hs), fun _ => true, fun p => .ok p,
        fun _ => false⟩ : ShapelyModel (GeoRing × List GeoRing))
      (some ⟨[[(0, 0), (1, 1)],
              [(0, 0), (0, 3), (3, 3), (0, 0)],
              [(1, 1), (1, 2), (2, 2), (1, 1)]], 4326⟩) =
      [([(0, 0), (0, 3), (3, 3), (0, 0)],
        [[(1, 1), (1, 2), (2, 2), (1, 1)]])] := by
  have h := (esri_polygon_to_polygons_spec
    (⟨fun o hs => .ok (o, hs), fun _ => true, fun p => .ok p,
      fun _ => false⟩ : ShapelyModel (GeoRing × List GeoRing))
    [[(0, 0), (1, 1)],
     [(0, 0), (0, 3), (3, 3), (0, 0)],
     [(1, 1), (1, 2), (2, 2), (1, 1)]] 4326).1
  rw [h]
  rfl

/-! ## Claim C3: union-failure cascade -/

/-- C3: whenever at least one polygon was collected the returned parcel
geometry is non-null, and the cascade behaves as specified: a polygon or
multi-polygon union result is returned as-is; a union of any other
geometry type is discarded in favour of a `MultiPolygon` assembled from
the collected polygons; a raising union likewise falls back to that
assembly; and when even the assembly raises, the first collected polygon
alone is returned. -/
theorem finishResolve_cascade {P : Type}
    (union : List P → Except Unit (UGeom P))
    (mkMulti : List P → Except Unit Unit)
    (g0 : P) (gs : List P) (matched : List Matched) :
    ((finishResolve union mkMulti (g0 :: gs) matched).parcel ≠ none) ∧
    (∀ p, union (g0 :: gs) = .ok (.poly p) →
      finishResolve union mkMulti (g0 :: gs) matched =
        ⟨some (.poly p), matched⟩) ∧
    (∀ ps, union (g0 :: gs) = .ok (.multi ps) →
      finishResolve union mkMulti (g0 :: gs) matched =
        ⟨some (.multi ps), matched⟩) ∧
    (union (g0 :: gs) = .ok .collection → mkMulti (g0 :: gs) = .ok () →
      finishResolve union mkMulti (g0 :: gs) matched =
        ⟨some (.multi (g0 :: gs)), matched⟩) ∧
    (union (g0 :: gs) = .ok .collection → mkMulti (g0 :: gs) = .error () →
      finishResolve union mkMulti (g0 :: gs) matched =
        ⟨some (.poly g0), matched⟩) ∧
    (union (g0 :: gs) = .error () → mkMulti (g0 :: gs) = .ok () →
      finishResolve union mkMulti (g0 :: gs) matched =
        ⟨some (.multi (g0 :: gs)), matched⟩) ∧
    (union (g0 :: gs) = .error () → mkMulti (g0 :: gs) = .error () →
      finishResolve union mkMulti (g0 :: gs) matched =
        ⟨some (.poly g0), matched⟩) := by
  refine ⟨?_, ?_, ?_, ?_, ?_, ?_, ?_⟩
  · simp only [finishResolve]
    cases hu : union (g0 :: gs) with
    | ok u =>
      cases u with
      | poly p => simp
      | multi ps => simp
      | collection =>
        simp only [unionFallback]
        cases hm : mkMulti (g0 :: gs) with
        | ok u2 => simp
        | error e =>
          cases hm2 : mkMulti (g0 :: gs) with
          | ok u3 => simp
          | error e2 => simp
    | error e =>
      simp only [unionFallback]
      cases hm : mkMulti (g0 :: gs) with
      | ok u2 => simp
      | error e2 => simp
  · intro p hu; simp [finishResolve, hu]
  · intro ps hu; simp [finishResolve, hu]
  · intro hu hm; simp [finishResolve, hu, hm]
  · intro hu hm; simp [finishResolve, unionFallback, hu, hm]
  · intro hu hm; simp [finishResolve, unionFallback, hu, hm]
  · intro hu hm; simp [finishResolve, unionFallback, hu, hm]

/-- Witness for C3: a raising union with a succeeding `MultiPolygon`
assembly yields the multi-polygon of the collected polygons. -/
theorem finishResolve_cascade_witness :
    finishResolve (P := Nat) (fun _ => .error ()) (fun _ => .ok ())
        (7 :: [8]) [] = ⟨some (.multi (7 :: [8])), []⟩ :=
  ((finishResolve_cascade (P := Nat) (fun _ => .error ()) (fun _ => .ok ())
    7 [8] []).2.2.2.2.2.1) rfl rfl

/-! ## Claim C5: tiered query strategy of the resolver -/

/-- C5: the combined lot-plan tier runs first when configured and its
non-empty result is taken without consulting tier B; a tier-A fetch
error (or empty result) falls through to the separate lot/plan tiers,
which are tried in order, each error being treated as "no match" so the
next tier still runs; when every tier errors the identifier simply
yields no features. -/
theorem queryTiers_spec (fetch : String → Except Unit (List Feature))
    (lpf lf pf lot plan : String) :
    (∀ fs, fs ≠ [] → fetch (whereA lpf lot plan) = .ok fs →
      queryTiers true fetch lpf lf pf lot plan = fs) ∧
    (∀ fs, fetch (whereA lpf lot plan) = .error () → fs ≠ [] →
      fetch (whereB1 lf pf lot plan) = .ok fs →
      queryTiers true fetch lpf lf pf lot plan = fs) ∧
    (∀ fs, fetch (whereA lpf lot plan) = .error () →
      fetch (whereB1 lf pf lot plan) = .error () →
      fetch (whereB2 lf pf lot plan) = .ok fs →
      queryTiers true fetch lpf lf pf lot plan = fs) ∧
    (∀ fs, fetch (whereA lpf lot plan) = .ok [] → fs ≠ [] →
      fetch (whereB1 lf pf lot plan) = .ok fs →
      queryTiers true fetch lpf lf pf lot plan = fs) ∧
    (fetch (whereA lpf lot plan) = .error () →
      fetch (whereB1 lf pf lot plan) = .error () →
      fetch (whereB2 lf pf lot plan) = .error () →
      queryTiers true fetch lpf lf pf lot plan = []) ∧
    (queryTiers false fetch lpf lf pf lot plan =
      whereLoop fetch [whereB1 lf pf lot plan, whereB2 lf pf lot plan] []) := by
  refine ⟨?_, ?_, ?_, ?_, ?_, ?_⟩
  · intro fs hne hA
    simp [queryTiers, hA, hne]
  · intro fs hA hne hB1
    simp [queryTiers, hA, whereLoop, hB1, hne]
  · intro fs hA hB1 hB2
    by_cases hne : fs = []
    · subst hne; simp [queryTiers, hA, whereLoop, hB1, hB2]
    · simp [queryTiers, hA, whereLoop, hB1, hB2, hne]
  · intro fs hA hne hB1
    simp [queryTiers, hA, whereLoop, hB1, hne]
  · intro hA hB1 hB2
    simp [queryTiers, hA, whereLoop, hB1, hB2]
  · simp [queryTiers]

/-- Witness for C5: tier A errors, tier B1 returns one feature, which
becomes the identifier's result. -/
theorem queryTiers_spec_witness :
    queryTiers true
      (fun w => if w = whereB1 "lot" "plan" "3" "RP67254"
        then .ok [⟨none, [("lot", "3")]⟩] else .error ())
      "lotplan" "lot" "plan" "3" "RP67254" = [⟨none, [("lot", "3")]⟩] :=
  ((queryTiers_spec
    (fun w => if w = whereB1 "lot" "plan" "3" "RP67254"
      then .ok [⟨none, [("lot", "3")]⟩] else .error ())
    "lotplan" "lot" "plan" "3" "RP67254").2.1)
    [⟨none, [("lot", "3")]⟩] rfl (by decide) rfl

/-! ## Claim C6: per-layer fallback ordering in intersect -/

/-- C6: the polygon query with the configured field list runs first and
its success is final; only on its failure is the polygon query with all
fields (`*`) attempted; only if that also fails is the envelope query
attempted.  When the second attempt succeeds, its features are the
layer's result and the envelope query is never issued — the trace of
queries contains exactly the two polygon attempts. -/
theorem intersectLayer_fallback_order
    (fetchI : String → QueryGeom → String → Except String (List Feature))
    (esriP : EsriPoly) (esriE : EsriEnv) (layer : LayerCfg) (lid : String) :
    (∀ fs, fetchI layer.url (.polyG esriP) (layerOutFields layer) = .ok fs →
      intersectLayer fetchI esriP esriE layer lid =
        (.ok fs, [(.polyG esriP, layerOutFields layer)])) ∧
    (∀ e1 fs,
      fetchI layer.url (.polyG esriP) (layerOutFields layer) = .error e1 →
      fetchI layer.url (.polyG esriP) "*" = .ok fs →
      intersectLayer fetchI esriP esriE layer lid =
        (.ok fs, [(.polyG esriP, layerOutFields layer),
          (.polyG esriP, "*")])) ∧
    (∀ e1 e2 fs,
      fetchI layer.url (.polyG esriP) (layerOutFields layer) = .error e1 →
      fetchI layer.url (.polyG esriP) "*" = .error e2 →
      fetchI layer.url (.envG esriE) "*" = .ok fs →
      intersectLayer fetchI esriP esriE layer lid =
        (.ok fs, [(.polyG esriP, layerOutFields layer), (.polyG esriP, "*"),
          (.envG esriE, "*")])) ∧
    (∀ e1 e2 e3,
      fetchI layer.url (.polyG esriP) (layerOutFields layer) = .error e1 →
      fetchI layer.url (.polyG esriP) "*" = .error e2 →
      fetchI layer.url (.envG esriE) "*" = .error e3 →
      intersectLayer fetchI esriP esriE layer lid =
        (.error (.upstream lid ["poly/conf: " ++ e1, "poly/*: " ++ e2,
          "env/*: " ++ e3]),
          [(.polyG esriP, layerOutFields layer), (.polyG esriP, "*"),
            (.envG esriE, "*")])) := by
  refine ⟨?_, ?_, ?_, ?_⟩ <;> intros <;> simp only [intersectLayer, *]

/-- Witness for C6: the configured-fields polygon query fails, the
all-fields polygon query succeeds, the layer result comes from the
second attempt and no envelope query appears in the trace. -/
theorem intersectLayer_fallback_order_witness :
    intersectLayer
      (fun _ _ ofields => if ofields = "*" then .ok [⟨none, []⟩]
        else .error "bad field list")
      ⟨[], 4326⟩ ⟨0, 0, 0, 0, 4326⟩
      ⟨"veg", "urlV", none, ["A", "B"], [], none⟩ "veg" =
      (.ok [⟨none, []⟩],
        [(.polyG ⟨[], 4326⟩, "A,B"), (.polyG ⟨[], 4326⟩, "*")]) :=
  ((intersectLayer_fallback_order
    (fun _ _ ofields => if ofields = "*" then .ok [⟨none, []⟩]
      else .error "bad field list")
    ⟨[], 4326⟩ ⟨0, 0, 0, 0, 4326⟩
    ⟨"veg", "urlV", none, ["A", "B"], [], none⟩ "veg").2.1)
    "bad field list" [⟨none, []⟩] rfl rfl

/-! ## Claim C1: one failing layer aborts the whole intersect request -/

/-- C1 counterexample: with two configured layers where only layer `a`'s
service fails (all three attempts) and layer `b` succeeds, `intersect`
returns an upstream error naming `a` — no `LayerResult` for the
succeeding layer `b` is contained in the response, in either request
order: the per-layer 502 propagates out of the loop and aborts the whole
request. -/
theorem intersect_no_sibling_result :
    (intersect
      (fun url _ _ => if url = "urlB" then .ok [⟨none, []⟩]
        else .error "boom")
      [⟨"a", "urlA", some "Layer A", [], [], none⟩,
       ⟨"b", "urlB", some "Layer B", [], [], none⟩]
      (some (.polygon [[(0, 0), (0, 1), (1, 1), (0, 0)]]))
      ["a", "b"]).1 =
      .error (.upstream "a"
        ["poly/conf: boom", "poly/*: boom", "env/*: boom"]) ∧
    (intersect
      (fun url _ _ => if url = "urlB" then .ok [⟨none, []⟩]
        else .error "boom")
      [⟨"a", "urlA", some "Layer A", [], [], none⟩,
       ⟨"b", "urlB", some "Layer B", [], [], none⟩]
      (some (.polygon [[(0, 0), (0, 1), (1, 1), (0, 0)]]))
      ["b", "a"]).1 =
      .error (.upstream "a"
        ["poly/conf: boom", "poly/*: boom", "env/*: boom"]) :=
  ⟨rfl, rfl⟩

theorem intersectLoop_abort
    (fetchI : String → QueryGeom → String → Except String (List Feature))
    (cfgs : List LayerCfg) (esriP : EsriPoly) (esriE : EsriEnv)
    (lid : String) (layer : LayerCfg) (ids2 : List String)
    (e1 e2 e3 : String)
    (hl : layerMapFind cfgs lid = some layer)
    (h1 : fetchI layer.url (.polyG esriP) (layerOutFields layer) = .error e1)
    (h2 : fetchI layer.url (.polyG esriP) "*" = .error e2)
    (h3 : fetchI layer.url (.envG esriE) "*" = .error e3) :
    ∀ ids1 : List String,
      (∀ l ∈ ids1, ∃ lcfg fs, layerMapFind cfgs l = some lcfg ∧
        fetchI lcfg.url (.polyG esriP) (layerOutFields lcfg) = .ok fs) →
      (intersectLoop fetchI cfgs esriP esriE (ids1 ++ lid :: ids2)).1 =
        .error (.upstream lid ["poly/conf: " ++ e1, "poly/*: " ++ e2,
          "env/*: " ++ e3]) := by
  intro ids1
  induction ids1 with
  | nil =>
    intro _
    simp only [List.nil_append, intersectLoop, hl, intersectLayer, h1, h2, h3]
  | cons l ls ih =>
    intro hpre
    obtain ⟨lcfg, fs, hfind, hok⟩ := hpre l (List.mem_cons_self l ls)
    have hrest := ih (fun l2 hl2 => hpre l2 (List.mem_cons_of_mem l hl2))
    simp only [List.cons_append, intersectLoop, hfind, intersectLayer, hok]
    simp only [List.append_eq] at hrest ⊢
    rw [hrest]

/-- C1 (amended): when one requested layer's feature-service queries
fail on all three fallback attempts, `intersect` raises an
upstream-failure (HTTP 502) naming that layer and all three attempt
errors — and this aborts the whole request: no `LayerResult` is returned
for any layer, including requested sibling layers that succeeded or
would have succeeded.  (The claim's assertion that sibling layers'
results are still returned is false; per-layer isolation does not hold
in `intersect`.) -/
theorem intersect_aborts_on_layer_failure
    (fetchI : String → QueryGeom → String → Except String (List Feature))
    (cfgs : List LayerCfg) (pg : GeoJSON)
    (ids1 ids2 : List String) (lid : String) (layer : LayerCfg)
    (e1 e2 e3 : String)
    (hmiss : ((ids1 ++ lid :: ids2).filter
      (fun l => (layerMapFind cfgs l).isNone)) = [])
    (hpre : ∀ l ∈ ids1, ∃ lcfg fs, layerMapFind cfgs l = some lcfg ∧
      fetchI lcfg.url (.polyG (geojson_to_esri_polygon pg (1 / 1000000)))
        (layerOutFields lcfg) = .ok fs)
    (hl : layerMapFind cfgs lid = some layer)
    (h1 : fetchI layer.url
      (.polyG (geojson_to_esri_polygon pg (1 / 1000000)))
      (layerOutFields layer) = .error e1)
    (h2 : fetchI layer.url
      (.polyG (geojson_to_esri_polygon pg (1 / 1000000))) "*" = .error e2)
    (h3 : fetchI layer.url
      (.envG (geojson_to_esri_envelope pg)) "*" = .error e3) :
    (intersect fetchI cfgs (some pg) (ids1 ++ lid :: ids2)).1 =
      .error (.upstream lid
        ["poly/conf: " ++ e1, "poly/*: " ++ e2, "env/*: " ++ e3]) := by
  simp only [intersect]
  rw [if_neg (by simp [hmiss])]
  exact intersectLoop_abort fetchI cfgs _ _ lid layer ids2 e1 e2 e3 hl h1 h2 h3
    ids1 hpre

/-- Witness for the amended C1 theorem at the concrete two-layer
request of the counterexample. -/
theorem intersect_aborts_on_layer_failure_witness :
    (intersect
      (fun url _ _ => if url = "urlB" then .ok [⟨none, []⟩]
        else .error "boom")
      [⟨"a", "urlA", some "Layer A", [], [], none⟩,
       ⟨"b", "urlB", some "Layer B", [], [], none⟩]
      (some (.polygon [[(0, 0), (0, 1), (1, 1), (0, 0)]]))
      (["b"] ++ "a" :: [])).1 =
      .error (.upstream "a"
        ["poly/conf: boom", "poly/*: boom", "env/*: boom"]) :=
  intersect_aborts_on_layer_failure
    (fun url _ _ => if url = "urlB" then .ok [⟨none, []⟩]
      else .error "boom")
    [⟨"a", "urlA", some "Layer A", [], [], none⟩,
     ⟨"b", "urlB", some "Layer B", [], [], none⟩]
    (.polygon [[(0, 0), (0, 1), (1, 1), (0, 0)]])
    ["b"] [] "a" ⟨"a", "urlA", some "Layer A", [], [], none⟩
    "boom" "boom" "boom" rfl
    (by
      intro l hml
      refine ⟨⟨"b", "urlB", some "Layer B", [], [], none⟩, [⟨none, []⟩],
        ?_, ?_⟩
      · have : l = "b" := by simpa using hml
        subst this; rfl
      · rfl)
    rfl rfl rfl rfl

/-! ## Claim C10: slash-free identifiers are skipped -/

theorem processLotplan_skip {P : Type} (env : ResolveEnv P) (lp : String)
    (h : '/' ∉ lp.data) : processLotplan env lp = ([], []) := by
  simp [processLotplan, h]

theorem flatten_map_filter {α β : Type} (g : α → List β) (q : α → Bool)
    (hg : ∀ a, q a = false → g a = []) (l : List α) :
    (l.map g).flatten = ((l.filter q).map g).flatten := by
  induction l with
  | nil => rfl
  | cons a t ih =>
    by_cases hq : q a = true
    · simp [List.filter_cons, hq, ih]
    · have hga := hg a (by simpa using hq)
      simp [List.filter_cons, hq, hga, ih]

/-- C10: `resolve_parcels` silently skips every identifier without a
`/`: such an entry contributes no geometry, no matched record and no
query (`processLotplan` returns `([], [])` for it under every
environment, so the run is unchanged if such entries are removed), and
resolving a list of only slash-free strings returns a null parcel with
empty matches and no error. -/
theorem resolve_parcels_skips_slash_free {P : Type} (env : ResolveEnv P)
    (lotplans : List String) (hurl : env.hasUrl = true) :
    (resolve_parcels env lotplans =
      resolve_parcels env (lotplans.filter (fun lp => '/' ∈ lp.data))) ∧
    (∀ lp, '/' ∉ lp.data → processLotplan env lp = ([], [])) ∧
    ((∀ lp ∈ lotplans, '/' ∉ lp.data) →
      resolve_parcels env lotplans = .ok ⟨none, []⟩) := by
  have hskip : ∀ lp, '/' ∉ lp.data → processLotplan env lp = ([], []) :=
    fun lp h => processLotplan_skip env lp h
  have hgeo : ∀ lp : String,
      (decide ('/' ∈ lp.data)) = false → (processLotplan env lp).1 = [] := by
    intro lp h
    rw [hskip lp (by simpa using h)]
  have hmat : ∀ lp : String,
      (decide ('/' ∈ lp.data)) = false → (processLotplan env lp).2 = [] := by
    intro lp h
    rw [hskip lp (by simpa using h)]
  refine ⟨?_, hskip, ?_⟩
  · simp only [resolve_parcels, hurl]
    congr 1
    rw [List.map_map, List.map_map, List.map_map, List.map_map]
    rw [flatten_map_filter
        ((fun q : List P × List Matched => q.1) ∘ processLotplan env)
        (fun lp => decide ('/' ∈ lp.data)) (fun a ha => hgeo a ha) lotplans,
      flatten_map_filter
        ((fun q : List P × List Matched => q.2) ∘ processLotplan env)
        (fun lp => decide ('/' ∈ lp.data)) (fun a ha => hmat a ha) lotplans]
  · intro hall
    simp only [resolve_parcels, hurl]
    have hg : (lotplans.map (processLotplan env)).map
        (fun q => q.1) = lotplans.map (fun _ => ([] : List P)) := by
      rw [List.map_map]
      exact List.map_congr_left (fun lp hlp => by
        simp [hskip lp (hall lp hlp)])
    have hm : (lotplans.map (processLotplan env)).map
        (fun q => q.2) = lotplans.map (fun _ => ([] : List Matched)) := by
      rw [List.map_map]
      exact List.map_congr_left (fun lp hlp => by
        simp [hskip lp (hall lp hlp)])
    rw [hg, hm]
    have hfl : ∀ {β : Type} (l : List String),
        (l.map (fun _ => ([] : List β))).flatten = [] := by
      intro β l
      induction l with
      | nil => rfl
      | cons a t ih => simp [ih]
    rw [hfl, hfl]
    rfl

/-- Witness for C10: a list of two slash-free identifiers resolves to a
null parcel and empty matches. -/
theorem resolve_parcels_skips_slash_free_witness :
    resolve_parcels (P := Nat)
      ⟨true, "lot", "plan", some "lotplan", fun _ => .error (),
        ⟨fun _ _ => .error (), fun _ => false, fun p => .ok p,
          fun _ => true⟩,
        fun _ => .error (), fun _ => .error ()⟩
      ["ABC", "3RP67254"] = .ok ⟨none, []⟩ :=
  ((resolve_parcels_skips_slash_free (P := Nat)
    ⟨true, "lot", "plan", some "lotplan", fun _ => .error (),
      ⟨fun _ _ => .error (), fun _ => false, fun p => .ok p,
        fun _ => true⟩,
      fun _ => .error (), fun _ => .error ()⟩
    ["ABC", "3RP67254"] rfl).2.2) (by decide)

end QldsMapper
